import Mathlib

/-!
# Verification of the NBA stats ETL pipeline (`Main_Project/app`)

A shallow embedding of the pandas-based pipeline in `pipeline.py` and the
season filter of `dashboard.py`, together with proofs of the specified
properties.

A `DF` models a `pandas.DataFrame`: an ordered list of column labels and a
list of rows, each row a positional list of values.  A `Val` models a cell:
`null` stands for pandas missing values (`NaN`/`NaT`/`None`), `str` for
strings, and `num` for numeric values (rationals stand in for the numeric
dtypes).  Column access (`df[name]`) resolves a label to the first position
carrying it, as pandas does for frames whose labels are unique.
-/

namespace NbaEtl

inductive Val where
  | null : Val
  | str : String → Val
  | num : Rat → Val
deriving DecidableEq, Repr

structure DF where
  cols : List String
  rows : List (List Val)
deriving DecidableEq, Repr

/-- Pandas `DataFrame.empty`: no rows or no columns. -/
def DF.isEmpty (df : DF) : Bool := df.rows.isEmpty || df.cols.isEmpty

/-- A rectangular frame: each row has one value per column. -/
def DF.Rect (df : DF) : Prop := ∀ r ∈ df.rows, r.length = df.cols.length

instance (df : DF) : Decidable df.Rect := by unfold DF.Rect; infer_instance

/-- Value of row `r` at the first column position labelled `n` (pandas
label-based access for unique labels). -/
def getEntry : List String → List Val → String → Option Val
  | [], _, _ => none
  | _ :: _, [], _ => none
  | c :: cs, v :: vs, n => if c = n then some v else getEntry cs vs n

/-! ## Stable sorting (Python `sorted`, pandas `lexsort`)

Python's `sorted` and pandas' multi-column `sort_values` are stable:
elements whose keys compare equal keep their original relative order.
`insSorted`/`sortByStable` implement a stable insertion sort for a total
preorder given as a boolean `le`. -/

def insSorted (le : α → α → Bool) (x : α) : List α → List α
  | [] => [x]
  | y :: ys => if le x y then x :: y :: ys else y :: insSorted le x ys

def sortByStable (le : α → α → Bool) : List α → List α
  | [] => []
  | x :: xs => insSorted le x (sortByStable le xs)

/-! ## First-occurrence deduplication (`DataFrame.drop_duplicates`)

`drop_duplicates(subset=ks)` keeps the first row of each key class.
`seen` accumulates the keys already emitted. -/

def dedupRows [DecidableEq K] (key : α → K) : List K → List α → List α
  | _, [] => []
  | seen, r :: rs =>
    if key r ∈ seen then dedupRows key seen rs
    else r :: dedupRows key (key r :: seen) rs

/-! ## Duplicate column labels (`out.loc[:, ~out.columns.duplicated()]`)

`columns.duplicated()` marks every occurrence of a label after the first;
the complement mask keeps first occurrences only.  The mask is computed
from the labels alone and then applied positionally to labels and rows. -/

def dupMask : List String → List String → List Bool
  | _, [] => []
  | seen, c :: cs =>
    if c ∈ seen then false :: dupMask (c :: seen) cs
    else true :: dupMask (c :: seen) cs

def applyMask : List Bool → List α → List α
  | [], _ => []
  | _, [] => []
  | true :: bs, x :: xs => x :: applyMask bs xs
  | false :: bs, _ :: xs => applyMask bs xs

def dropDupCols (df : DF) : DF :=
  if df.cols.Nodup then df
  else
    let mask := dupMask [] df.cols
    { cols := applyMask mask df.cols, rows := df.rows.map (applyMask mask) }

/-! ## `clean_player_games` -/

/-- Python `str.lower`, character by character (column labels are ASCII,
where per-character lowering coincides with `str.lower`). -/
def lowerStr (s : String) : String := String.mk (s.data.map Char.toLower)

/-- Model of `out["game_date"] = pd.to_datetime(out["game_date"], errors="coerce")`:
replace the value in every position labelled `game_date` by its coercion.
The coercion function `c` abstracts `pd.to_datetime(·, errors="coerce")`. -/
def coerceVals (c : Val → Val) : List String → List Val → List Val
  | n :: cs, v :: vs => (if n = "game_date" then c v else v) :: coerceVals c cs vs
  | _, vs => vs

def coerceGameDate (c : Val → Val) (df : DF) : DF :=
  if "game_date" ∈ df.cols then
    { cols := df.cols, rows := df.rows.map (coerceVals c df.cols) }
  else df

/-- The natural-key columns actually present, in the source's order:
`[c for c in ["player_id", "game_id", "season"] if c in out.columns]`. -/
def cleanKeyCols (cols : List String) : List String :=
  ["player_id", "game_id", "season"].filter (fun c => c ∈ cols)

def keyOfRow (cols : List String) (keyCols : List String) (r : List Val) :
    List (Option Val) :=
  keyCols.map (getEntry cols r)

/-- The curated allow-list of player-game columns. -/
def allowListP : List String :=
  ["season", "player_id", "player_name",
   "game_id", "game_date", "matchup", "wl",
   "min", "pts", "reb", "ast", "stl", "blk", "tov",
   "fgm", "fga", "fg3m", "fg3a", "ftm", "fta", "plus_minus"]

def keepCols (cols : List String) : List String :=
  cols.filter (fun c => c ∈ allowListP)

/-- Model of `out[names]`: select the listed columns, in the listed order. -/
def selectCols (df : DF) (names : List String) : DF :=
  { cols := names,
    rows := df.rows.map (fun r => names.map (fun n => (getEntry df.cols r n).getD Val.null)) }

/-- Embedding of `clean_player_games`, with `c` abstracting `pd.to_datetime`. -/
def clean_player_games (c : Val → Val) (df : DF) : DF :=
  if df.isEmpty then df
  else
    let out1 : DF := { cols := df.cols.map lowerStr, rows := df.rows }
    let out2 := dropDupCols out1
    let out3 := coerceGameDate c out2
    let kc := cleanKeyCols out3.cols
    let out4 : DF :=
      if kc = [] then out3
      else { cols := out3.cols,
             rows := dedupRows (keyOfRow out3.cols kc) [] out3.rows }
    let keep := keepCols out4.cols
    if keep = [] then out4 else selectCols out4 keep

/-! ## `make_player_trends` -/

/-- Comparison of cell values, as pandas sorts them with `na_position`
`"last"` (ascending order, missing values greatest).  Mixed `str`/`num`
columns would raise in pandas; they are ordered arbitrarily here. -/
def valCmp : Val → Val → Ordering
  | Val.null, Val.null => .eq
  | Val.null, _ => .gt
  | _, Val.null => .lt
  | Val.str a, Val.str b => compare a b
  | Val.num a, Val.num b => if a < b then .lt else if a = b then .eq else .gt
  | Val.num _, Val.str _ => .lt
  | Val.str _, Val.num _ => .gt

def optValCmp : Option Val → Option Val → Ordering
  | none, none => .eq
  | none, some _ => .gt
  | some _, none => .lt
  | some a, some b => valCmp a b

/-- Lexicographic comparison of two rows on a list of key columns
(`sort_values(["player_id", "season", "game_date"])`). -/
def rowCmpBy (cols : List String) (keys : List String) (r1 r2 : List Val) : Ordering :=
  match keys with
  | [] => .eq
  | k :: ks =>
    match optValCmp (getEntry cols r1 k) (getEntry cols r2 k) with
    | .lt => .lt
    | .gt => .gt
    | .eq => rowCmpBy cols ks r1 r2

def sortKeyCols : List String := ["player_id", "season", "game_date"]

def rowLe (cols : List String) (r1 r2 : List Val) : Bool :=
  rowCmpBy cols sortKeyCols r1 r2 ≠ Ordering.gt

/-- The `groupby(["player_id", "season"])` key of a row.  pandas drops
groups whose key contains a missing value (`dropna=True`), so a key with a
`null` component is `none`. -/
def groupKey (cols : List String) (r : List Val) : Option (Val × Val) :=
  match getEntry cols r "player_id", getEntry cols r "season" with
  | some a, some b =>
    if a = Val.null ∨ b = Val.null then none else some (a, b)
  | _, _ => none

/-- The numeric observation of row `r` in column `name` (`none` models a
missing value, skipped by rolling means and `min_periods`). -/
def colObs (cols : List String) (name : String) (r : List Val) : Option Rat :=
  match getEntry cols r name with
  | some (Val.num q) => some q
  | _ => none

/-- Model of `Series.rolling(win, min_periods=minp).mean()` at index `i`: the mean
of the non-missing observations among the last `win` entries ending at
`i`, or `none` when fewer than `minp` observations are present. -/
def rollMeanAt (win minp : Nat) (xs : List (Option Rat)) (i : Nat) : Option Rat :=
  let window := (xs.take (i + 1)).drop (i + 1 - win)
  let obs := window.filterMap id
  if obs.length < minp then none
  else some (obs.sum / (obs.length : Rat))

/-- Model of `groupby(["player_id", "season"])[name].transform(rolling(10,
min_periods=3).mean())`: each row receives the rolling value at its
position within its group's series; rows whose group key is dropped
receive a missing value. -/
def transformRoll (cols : List String) (name : String) (rows : List (List Val)) :
    List Val :=
  (List.range rows.length).map (fun j =>
    let r := rows.getD j []
    match groupKey cols r with
    | none => Val.null
    | some k =>
      let series := (rows.filter (fun r2 => groupKey cols r2 = some k)).map
        (colObs cols name)
      let pos := ((rows.take j).filter (fun r2 => groupKey cols r2 = some k)).length
      match rollMeanAt 10 3 series pos with
      | none => Val.null
      | some q => Val.num q)

/-- Model of `df[name] = vals`: replace the column when the label exists, else
append it on the right. -/
def setColRow (name : String) : List String → List Val → Val → List Val
  | c :: cs, x :: xs, v => (if c = name then v else x) :: setColRow name cs xs v
  | _, xs, _ => xs

def setCol (df : DF) (name : String) (vals : List Val) : DF :=
  if name ∈ df.cols then
    { cols := df.cols,
      rows := (df.rows.zip vals).map (fun p => setColRow name df.cols p.1 p.2) }
  else
    { cols := df.cols ++ [name],
      rows := (df.rows.zip vals).map (fun p => p.1 ++ [p.2]) }

def trendCols : List String := ["pts", "reb", "ast"]

/-- One iteration of the `for col in ["pts", "reb", "ast"]` loop. -/
def addRoll (df : DF) (name : String) : DF :=
  if name ∈ df.cols then
    setCol df (name ++ "_roll10") (transformRoll df.cols name df.rows)
  else df

/-- Embedding of `make_player_trends`.  Its `sort_values`/`groupby` calls raise `KeyError` when a
requested column is absent; that is the `Except.error` case (it can only
arise once the `game_date` guard has passed). -/
def make_player_trends (df : DF) : Except String DF :=
  if df.isEmpty then .ok df
  else if "game_date" ∉ df.cols then .ok df
  else if "player_id" ∉ df.cols ∨ "season" ∉ df.cols then
    .error "KeyError: missing sort column"
  else
    let sorted : DF := { cols := df.cols, rows := sortByStable (rowLe df.cols) df.rows }
    .ok (trendCols.foldl addRoll sorted)

/-! ## `resolve_player_ids` -/

/-- One record of `nba_api.stats.static.players` (`is_active` read with
`.get`, hence optional). -/
structure MatchRec where
  id : Int
  full_name : String
  is_active : Option Bool
deriving DecidableEq, Repr

structure DimRow where
  player_id : Int
  player_name : String
  full_name_registry : String
  is_active : Option Bool
deriving DecidableEq, Repr

/-- The sort key `lambda x: x.get("is_active", False)`. -/
def activeKey (m : MatchRec) : Bool := m.is_active.getD false

/-- Model of `sorted(matches, key=activeKey, reverse=True)`: stable, descending. -/
def sortMatches (ms : List MatchRec) : List MatchRec :=
  sortByStable (fun a b => !activeKey b || activeKey a) ms

def mkDimRow (name : String) (p : MatchRec) : DimRow :=
  { player_id := p.id, player_name := name,
    full_name_registry := p.full_name, is_active := p.is_active }

/-- The row-building loop of `resolve_player_ids`: `reg` abstracts
`players.find_players_by_full_name`.  An empty match list raises. -/
def resolveRows (reg : String → List MatchRec) : List String → Except String (List DimRow)
  | [] => .ok []
  | name :: rest =>
    match reg name with
    | [] => .error ("Could not find player: " ++ name)
    | m :: ms =>
      let p := (sortMatches (m :: ms)).headD m
      (resolveRows reg rest).map (fun rs => mkDimRow name p :: rs)

/-- Embedding of `resolve_player_ids`: build the rows, then
`drop_duplicates(subset=["player_id"])`. -/
def resolve_player_ids (reg : String → List MatchRec) (names : List String) :
    Except String (List DimRow) :=
  (resolveRows reg names).map (fun rs => dedupRows DimRow.player_id [] rs)

/-! ## `extract_player_gamelogs`

`fetch` abstracts the `PlayerGameLog(...).get_data_frames()[0]` call: it
either yields the fetched rows or fails.  A failure is caught, logged and
skipped; an empty frame is skipped by the `if df.empty: continue` guard.
Tagging a frame with `season`/`player_id`/`player_name` is modelled by
pairing each fetched row with the tag. -/

structure TaggedRow (α : Type) where
  base : α
  season : String
  player_id : Int
  player_name : String
deriving DecidableEq, Repr

def tagRows (rows : List α) (season : String) (pid : Int) (pname : String) :
    List (TaggedRow α) :=
  rows.map (fun r => { base := r, season := season, player_id := pid, player_name := pname })

/-- The body of the nested loop: the logs appended for one (season, player)
iteration (`[]` when the fetch fails or the frame is empty). -/
def pairLogs (fetch : Int → String → Except String (List α))
    (season : String) (pid : Int) (pname : String) : List (TaggedRow α) :=
  match fetch pid season with
  | .error _ => []
  | .ok rows => if rows.isEmpty then [] else tagRows rows season pid pname

def extract_player_gamelogs (fetch : Int → String → Except String (List α))
    (dimPlayers : List (Int × String)) (seasons : List String) : List (TaggedRow α) :=
  (seasons.foldl (fun acc season =>
    dimPlayers.foldl (fun acc2 p =>
      acc2 ++ pairLogs fetch season p.1 p.2) acc) [])

/-! ## Dashboard season filter

`fact[(fact["player_name"] == selected_player) &
(fact["season"].isin(selected_seasons))]`.  Elementwise `==` and `isin`
are false on missing values. -/

def seasonIsIn (cols : List String) (r : List Val) (seasons : List String) : Bool :=
  match getEntry cols r "season" with
  | some (Val.str s) => s ∈ seasons
  | _ => false

def dashFilter (fact : DF) (player : String) (seasons : List String) : DF :=
  { cols := fact.cols,
    rows := fact.rows.filter (fun r =>
      decide (getEntry fact.cols r "player_name" = some (Val.str player)) &&
      seasonIsIn fact.cols r seasons) }

/-! ## Transformation stage (for determinism) -/

def transformStage (c : Val → Val) (df : DF) : DF × Except String DF :=
  (clean_player_games c df, make_player_trends (clean_player_games c df))


/-! ## Concrete data used to exercise the theorems -/

/-- A small static registry standing in for
`players.find_players_by_full_name`: two candidates named "a" (one
retired, one active, one active namesake), one candidate named "b",
nobody named anything else. -/
def regW : String → List MatchRec := fun n =>
  if n = "a" then
    [{ id := 1, full_name := "A One", is_active := some false },
     { id := 2, full_name := "A Two", is_active := some true },
     { id := 3, full_name := "A Three", is_active := some true }]
  else if n = "b" then [{ id := 4, full_name := "B", is_active := none }]
  else []

/-- A small raw player-game frame with unnormalized labels, a duplicated
`PTS` label and a duplicated natural key, used to exercise the cleaning
theorems. -/
def dfW : DF :=
  { cols := ["Player_ID", "GAME_ID", "SEASON", "GAME_DATE", "PTS", "PTS"],
    rows := [
      [Val.num 1, Val.str "g1", Val.str "s", Val.str "d1", Val.num 10, Val.num 99],
      [Val.num 1, Val.str "g1", Val.str "s", Val.str "d2", Val.num 11, Val.num 98],
      [Val.num 2, Val.str "g1", Val.str "s", Val.str "d3", Val.num 12, Val.num 97]] }

/-- A one-row player-game frame that already carries a `pts_roll10`
column. -/
def dfC : DF :=
  { cols := ["player_id", "season", "game_date", "pts", "pts_roll10"],
    rows := [[Val.num 1, Val.str "s", Val.num 5, Val.num 7, Val.num 99]] }

/-- A small clean fact frame: five games, two players, one season. -/
def dfT : DF :=
  { cols := ["player_id", "season", "game_date", "pts"],
    rows := [
      [Val.num 1, Val.str "s", Val.num 3, Val.num 30],
      [Val.num 1, Val.str "s", Val.num 1, Val.num 10],
      [Val.num 1, Val.str "s", Val.num 2, Val.num 20],
      [Val.num 2, Val.str "s", Val.num 1, Val.num 5],
      [Val.num 1, Val.str "s", Val.num 4, Val.num 40]] }

/-! # Helper lemmas -/

/-! ## `getEntry` -/

theorem getEntry_nil_row (cs : List String) (n : String) : getEntry cs [] n = none := by
  cases cs <;> rfl

theorem getEntry_eq_none_of_not_mem :
    ∀ (cs : List String) (vs : List Val) (n : String), n ∉ cs → getEntry cs vs n = none
  | [], _, _, _ => rfl
  | _ :: _, [], _, _ => rfl
  | c :: cs, v :: vs, n, h => by
    have hne : c ≠ n := fun hc => h (hc ▸ List.mem_cons_self c cs)
    simp only [getEntry, if_neg hne]
    exact getEntry_eq_none_of_not_mem cs vs n (fun hm => h (List.mem_cons_of_mem c hm))

theorem getEntry_isSome_of_mem :
    ∀ (cs : List String) (vs : List Val) (n : String), n ∈ cs → vs.length = cs.length →
      (getEntry cs vs n).isSome
  | [], _, n, h, _ => absurd h (List.not_mem_nil n)
  | c :: cs, [], n, _, hl => by simp at hl
  | c :: cs, v :: vs, n, h, hl => by
    simp only [getEntry]
    by_cases hc : c = n
    · simp [hc]
    · simp only [if_neg hc]
      have : n ∈ cs := by
        rcases List.mem_cons.1 h with h' | h'
        · exact absurd h'.symm hc
        · exact h'
      exact getEntry_isSome_of_mem cs vs n this (by simpa using hl)

theorem getEntry_map_self (names : List String) (f : String → Val) (n : String)
    (h : n ∈ names) : getEntry names (names.map f) n = some (f n) := by
  induction names with
  | nil => exact absurd h (List.not_mem_nil n)
  | cons c cs ih =>
    simp only [List.map, getEntry]
    by_cases hc : c = n
    · simp [hc]
    · simp only [if_neg hc]
      rcases List.mem_cons.1 h with h' | h'
      · exact absurd h'.symm hc
      · exact ih h'

/-! ## Stable sort -/

theorem insSorted_perm (le : α → α → Bool) (x : α) :
    ∀ l : List α, List.Perm (insSorted le x l) (x :: l)
  | [] => List.Perm.refl _
  | y :: ys => by
    simp only [insSorted]
    by_cases h : le x y
    · simp [h]
    · simp only [if_neg h]
      exact ((insSorted_perm le x ys).cons y).trans (List.Perm.swap x y ys)

theorem sortByStable_perm (le : α → α → Bool) :
    ∀ l : List α, List.Perm (sortByStable le l) l
  | [] => List.Perm.refl _
  | x :: xs => (insSorted_perm le x (sortByStable le xs)).trans
      ((sortByStable_perm le xs).cons x)

theorem insSorted_ne_nil (le : α → α → Bool) (x : α) (l : List α) :
    insSorted le x l ≠ [] := by
  cases l with
  | nil => simp [insSorted]
  | cons y ys =>
    simp only [insSorted]
    by_cases h : le x y <;> simp [h]

/-! ## `dedupRows` -/

theorem mem_of_mem_dedupRows [DecidableEq K] (key : α → K) :
    ∀ (seen : List K) (l : List α) (r : α), r ∈ dedupRows key seen l → r ∈ l := by
  intro seen l
  induction l generalizing seen with
  | nil => intro r h; exact absurd h (List.not_mem_nil r)
  | cons a l ih =>
    intro r h
    simp only [dedupRows] at h
    by_cases ha : key a ∈ seen
    · rw [if_pos ha] at h
      exact List.mem_cons_of_mem a (ih seen r h)
    · rw [if_neg ha] at h
      rcases List.mem_cons.1 h with h' | h'
      · exact h' ▸ List.mem_cons_self a l
      · exact List.mem_cons_of_mem a (ih (key a :: seen) r h')

theorem key_not_seen_of_mem_dedupRows [DecidableEq K] (key : α → K) :
    ∀ (seen : List K) (l : List α) (r : α), r ∈ dedupRows key seen l → key r ∉ seen := by
  intro seen l
  induction l generalizing seen with
  | nil => intro r h; exact absurd h (List.not_mem_nil r)
  | cons a l ih =>
    intro r h
    simp only [dedupRows] at h
    by_cases ha : key a ∈ seen
    · rw [if_pos ha] at h
      exact ih seen r h
    · rw [if_neg ha] at h
      rcases List.mem_cons.1 h with h' | h'
      · exact h' ▸ ha
      · intro hs
        exact ih (key a :: seen) r h' (List.mem_cons_of_mem _ hs)

theorem dedupRows_pairwise [DecidableEq K] (key : α → K) :
    ∀ (seen : List K) (l : List α),
      (dedupRows key seen l).Pairwise (fun a b => key a ≠ key b) := by
  intro seen l
  induction l generalizing seen with
  | nil => exact List.Pairwise.nil
  | cons a l ih =>
    simp only [dedupRows]
    by_cases ha : key a ∈ seen
    · rw [if_pos ha]; exact ih seen
    · rw [if_neg ha]
      refine List.Pairwise.cons ?_ (ih (key a :: seen))
      intro b hb hkey
      exact key_not_seen_of_mem_dedupRows key _ _ _ hb (hkey ▸ List.mem_cons_self _ _)

theorem dedupRows_countP_eq_zero [DecidableEq K] (key : α → K) (k : K) :
    ∀ (seen : List K) (l : List α), k ∈ seen →
      (dedupRows key seen l).countP (fun r => decide (key r = k)) = 0 := by
  intro seen l hk
  rw [List.countP_eq_zero]
  intro r hr
  simp only [decide_eq_true_eq]
  intro he
  exact key_not_seen_of_mem_dedupRows key seen l r hr (he ▸ hk)

theorem dedupRows_countP_eq_one [DecidableEq K] (key : α → K) (k : K) :
    ∀ (seen : List K) (l : List α), k ∉ seen → (∃ r ∈ l, key r = k) →
      (dedupRows key seen l).countP (fun r => decide (key r = k)) = 1 := by
  intro seen l
  induction l generalizing seen with
  | nil => rintro _ ⟨r, hr, -⟩; exact absurd hr (List.not_mem_nil r)
  | cons a l ih =>
    rintro hk ⟨r, hr, hkey⟩
    simp only [dedupRows]
    by_cases ha : key a ∈ seen
    · rw [if_pos ha]
      rcases List.mem_cons.1 hr with h' | h'
      · refine absurd ?_ hk
        rw [← hkey, h']
        exact ha
      · exact ih seen hk ⟨r, h', hkey⟩
    · rw [if_neg ha]
      by_cases hak : key a = k
      · rw [List.countP_cons_of_pos _ _ (by simpa using hak)]
        rw [dedupRows_countP_eq_zero key k (key a :: seen) l (hak ▸ List.mem_cons_self _ _)]
      · rw [List.countP_cons_of_neg _ _ (by simpa using hak)]
        refine ih (key a :: seen) ?_ ?_
        · intro hmem
          rcases List.mem_cons.1 hmem with h' | h'
          · exact hak h'.symm
          · exact hk h'
        · rcases List.mem_cons.1 hr with h' | h'
          · exact absurd (h' ▸ hkey) hak
          · exact ⟨r, h', hkey⟩

/-! # Claim theorems -/

/-- C6: `extract_player_gamelogs` is a total function of the fetch oracle:
a fetch failure for one (player, season) pair contributes nothing and does
not disturb the other pairs, an empty frame is skipped, and the result is
exactly the concatenation, over seasons and then players, of the non-empty
successfully fetched frames, each row tagged with its season, player id
and player name. -/
theorem extract_player_gamelogs_concat_of_successes {α : Type} 
    (fetch : Int → String → Except String (List α))
    (dimPlayers : List (Int × String)) (seasons : List String) :
    extract_player_gamelogs fetch dimPlayers seasons =
      seasons.flatMap (fun season => dimPlayers.flatMap (fun p =>
        match fetch p.1 season with
        | .error _ => []
        | .ok rows => if rows.isEmpty then [] else tagRows rows season p.1 p.2)) := by
  have inner : ∀ (season : String) (dim : List (Int × String)) (acc : List (TaggedRow α)),
      dim.foldl (fun a2 p => a2 ++ pairLogs fetch season p.1 p.2) acc =
        acc ++ dim.flatMap (fun p => pairLogs fetch season p.1 p.2) := by
    intro season dim
    induction dim with
    | nil => intro acc; simp
    | cons p dim ih => intro acc; simp [ih, List.flatMap_cons]
  have outer : ∀ (ss : List String) (acc : List (TaggedRow α)),
      ss.foldl (fun acc season =>
          dimPlayers.foldl (fun a2 p => a2 ++ pairLogs fetch season p.1 p.2) acc) acc =
        acc ++ ss.flatMap (fun season =>
          dimPlayers.flatMap (fun p => pairLogs fetch season p.1 p.2)) := by
    intro ss
    induction ss with
    | nil => intro acc; simp
    | cons s ss ih =>
      intro acc
      simp only [List.foldl_cons]
      rw [inner s dimPlayers acc, ih, List.flatMap_cons, List.append_assoc]
  simpa [extract_player_gamelogs, pairLogs] using outer seasons []

/-- C8: the transformation stage is deterministic: applied to identical
input tables (with the same date coercion), `clean_player_games` followed
by `make_player_trends` produces identical fact and trend tables. -/
theorem transformStage_deterministic (c : Val → Val) (df1 df2 : DF) (h : df1 = df2) :
    transformStage c df1 = transformStage c df2 := by
  rw [h]

theorem transformStage_deterministic_witness :
    transformStage id { cols := ["season"], rows := [[Val.str "2023-24"]] } =
      transformStage id { cols := ["season"], rows := [[Val.str "2023-24"]] } :=
  transformStage_deterministic id _ _ rfl

/-- C9: filtering the fact table by a player and a single selected season
keeps only rows whose `season` field equals the selected season. -/
theorem dashFilter_single_season (fact : DF) (player s : String) :
    ∀ r ∈ (dashFilter fact player [s]).rows,
      getEntry fact.cols r "season" = some (Val.str s) := by
  intro r hr
  simp only [dashFilter, List.mem_filter, Bool.and_eq_true, decide_eq_true_eq] at hr
  obtain ⟨-, -, h2⟩ := hr
  unfold seasonIsIn at h2
  revert h2
  split
  next s' heq =>
    intro h2
    simp only [List.mem_singleton, decide_eq_true_eq] at h2
    rw [heq, h2]
  next => intro h2; simp at h2

theorem dashFilter_single_season_witness :
    getEntry ["player_name", "season"] [Val.str "p", Val.str "s1"] "season" =
      some (Val.str "s1") :=
  dashFilter_single_season
    { cols := ["player_name", "season"],
      rows := [[Val.str "p", Val.str "s1"], [Val.str "p", Val.str "s2"],
               [Val.str "q", Val.str "s1"]] }
    "p" "s1" [Val.str "p", Val.str "s1"] (by decide)


/-! ## Active-match preference -/

theorem sortMatches_head_active (ms : List MatchRec)
    (h : ∃ m ∈ ms, activeKey m = true) :
    ∃ p, (sortMatches ms).head? = some p ∧ activeKey p = true := by
  induction ms with
  | nil => obtain ⟨m, hm, -⟩ := h; exact absurd hm (List.not_mem_nil m)
  | cons m ms ih =>
    show ∃ p, (insSorted _ m (sortMatches ms)).head? = some p ∧ _
    by_cases hm : activeKey m = true
    · cases hs : sortMatches ms with
      | nil => exact ⟨m, by simp [insSorted], hm⟩
      | cons y ys =>
        refine ⟨m, ?_, hm⟩
        have hle : (!activeKey y || activeKey m) = true := by simp [hm]
        simp [insSorted, hle]
    · have hms : ∃ m' ∈ ms, activeKey m' = true := by
        obtain ⟨m', hm', ha'⟩ := h
        rcases List.mem_cons.1 hm' with h' | h'
        · exact absurd (h' ▸ ha') hm
        · exact ⟨m', h', ha'⟩
      obtain ⟨p, hp, hact⟩ := ih hms
      cases hs : sortMatches ms with
      | nil => rw [hs] at hp; simp at hp
      | cons y ys =>
        rw [hs] at hp
        simp only [List.head?_cons, Option.some.injEq] at hp
        subst hp
        refine ⟨y, ?_, hact⟩
        simp [insSorted, hact, hm]

theorem sortMatches_ne_nil (m : MatchRec) (ms : List MatchRec) :
    sortMatches (m :: ms) ≠ [] := by
  show insSorted _ m (sortMatches ms) ≠ []
  exact insSorted_ne_nil _ m _

theorem resolveRows_ok_mem (reg : String → List MatchRec) :
    ∀ (names : List String) (rows : List DimRow) (name : String),
      resolveRows reg names = .ok rows → name ∈ names →
      ∃ m ms, reg name = m :: ms ∧
        mkDimRow name ((sortMatches (m :: ms)).headD m) ∈ rows := by
  intro names
  induction names with
  | nil => intro rows name _ hmem; exact absurd hmem (List.not_mem_nil name)
  | cons n rest ih =>
    intro rows name hok hmem
    simp only [resolveRows] at hok
    cases hr : reg n with
    | nil => rw [hr] at hok; simp at hok
    | cons m ms =>
      rw [hr] at hok
      cases hrest : resolveRows reg rest with
      | error e => rw [hrest] at hok; simp [Except.map] at hok
      | ok rs =>
        rw [hrest] at hok
        simp only [Except.map, Except.ok.injEq] at hok
        rcases List.mem_cons.1 hmem with h' | h'
        · subst h'
          exact ⟨m, ms, hr, by rw [← hok]; exact List.mem_cons_self _ _⟩
        · obtain ⟨m', ms', hr', hmem'⟩ := ih rs name hrest h'
          exact ⟨m', ms', hr', by rw [← hok]; exact List.mem_cons_of_mem _ hmem'⟩

/-- C5: whenever a name has several registry matches and at least one of
them is an active player, the selection (head of the stable descending
sort on the active flag) is an active match, and the row built for that
name is populated from the selected match's id, registry full name and
active flag. -/
theorem resolve_prefers_active (reg : String → List MatchRec)
    (names : List String) (rows : List DimRow) (name : String)
    (hok : resolveRows reg names = .ok rows) (hmem : name ∈ names)
    (hact : ∃ m ∈ reg name, activeKey m = true) :
    ∃ p, (sortMatches (reg name)).head? = some p ∧ activeKey p = true ∧
      mkDimRow name p ∈ rows := by
  obtain ⟨m, ms, hr, hrow⟩ := resolveRows_ok_mem reg names rows name hok hmem
  obtain ⟨p, hp, hactp⟩ := sortMatches_head_active (reg name) hact
  refine ⟨p, hp, hactp, ?_⟩
  rw [hr] at hp
  cases hs : sortMatches (m :: ms) with
  | nil => exact absurd hs (sortMatches_ne_nil m ms)
  | cons y ys =>
    rw [hs] at hp
    simp only [List.head?_cons, Option.some.injEq] at hp
    rw [hs] at hrow
    simpa [hp] using hrow

theorem resolve_prefers_active_witness :
    ∃ p, (sortMatches (regW "a")).head? = some p ∧ activeKey p = true ∧
      mkDimRow "a" p ∈
        [{ player_id := 2, player_name := "a", full_name_registry := "A Two",
           is_active := some true }] :=
  resolve_prefers_active regW ["a"]
    [{ player_id := 2, player_name := "a", full_name_registry := "A Two",
       is_active := some true }]
    "a" rfl (List.mem_singleton.2 rfl) (by decide)

/-! ## Resolution failure -/

theorem resolveRows_error_iff (reg : String → List MatchRec) :
    ∀ names : List String,
      (∃ e, resolveRows reg names = .error e) ↔ ∃ n ∈ names, reg n = [] := by
  intro names
  induction names with
  | nil => simp [resolveRows]
  | cons n rest ih =>
    simp only [resolveRows]
    cases hr : reg n with
    | nil => simp [hr]
    | cons m ms =>
      cases hrest : resolveRows reg rest with
      | error e =>
        simp only [Except.map]
        constructor
        · intro _
          obtain ⟨n', hn', he'⟩ := ih.1 ⟨e, hrest⟩
          exact ⟨n', List.mem_cons_of_mem _ hn', he'⟩
        · intro _; exact ⟨e, rfl⟩
      | ok rs =>
        simp only [Except.map]
        constructor
        · rintro ⟨e, he⟩; simp at he
        · rintro ⟨n', hn', he'⟩
          rcases List.mem_cons.1 hn' with h' | h'
          · rw [h'] at he'; rw [he'] at hr; simp at hr
          · obtain ⟨e, he⟩ := ih.2 ⟨n', h', he'⟩
            rw [he] at hrest
            simp at hrest

theorem resolveRows_first_error (reg : String → List MatchRec) :
    ∀ (pre : List String) (n : String) (post : List String),
      (∀ m ∈ pre, reg m ≠ []) → reg n = [] →
      resolveRows reg (pre ++ n :: post) = .error ("Could not find player: " ++ n) := by
  intro pre
  induction pre with
  | nil =>
    intro n post _ hn
    simp only [List.nil_append, resolveRows, hn]
  | cons a pre ih =>
    intro n post hpre hn
    have ha : reg a ≠ [] := hpre a (List.mem_cons_self _ _)
    simp only [List.cons_append, resolveRows]
    cases hr : reg a with
    | nil => exact absurd hr ha
    | cons m ms =>
      simp only [List.append_eq]
      rw [ih n post (fun m' hm' => hpre m' (List.mem_cons_of_mem _ hm')) hn]
      simp [Except.map]

/-- C4: `resolve_player_ids` fails (with no output table) exactly when some
input name has no registry match, and the error it raises names the first
such name in input order. -/
theorem resolve_player_ids_error_iff (reg : String → List MatchRec)
    (names : List String) :
    ((∃ e, resolve_player_ids reg names = .error e) ↔ ∃ n ∈ names, reg n = []) ∧
    (∀ (pre : List String) (n : String) (post : List String),
      names = pre ++ n :: post → (∀ m ∈ pre, reg m ≠ []) → reg n = [] →
      resolve_player_ids reg names = .error ("Could not find player: " ++ n)) := by
  constructor
  · unfold resolve_player_ids
    cases hrr : resolveRows reg names with
    | error e =>
      simp only [Except.map]
      exact Iff.intro (fun _ => (resolveRows_error_iff reg names).1 ⟨e, hrr⟩)
        (fun _ => ⟨e, rfl⟩)
    | ok rs =>
      simp only [Except.map]
      constructor
      · rintro ⟨e, he⟩; simp at he
      · intro h
        obtain ⟨e, he⟩ := (resolveRows_error_iff reg names).2 h
        rw [he] at hrr
        simp at hrr
  · intro pre n post hsplit hpre hn
    unfold resolve_player_ids
    rw [hsplit, resolveRows_first_error reg pre n post hpre hn]
    simp [Except.map]

theorem resolve_player_ids_error_iff_witness :
    resolve_player_ids regW ["a", "c", "b"] =
      .error ("Could not find player: " ++ "c") :=
  (resolve_player_ids_error_iff regW ["a", "c", "b"]).2 ["a"] "c" ["b"] rfl
    (by decide) rfl

/-- C3: whenever `resolve_player_ids` succeeds, the returned dimension
table has exactly one row per resolved identifier: no two rows share a
`player_id`. -/
theorem resolve_player_ids_unique (reg : String → List MatchRec)
    (names : List String) (t : List DimRow)
    (h : resolve_player_ids reg names = .ok t) :
    t.Pairwise (fun a b => a.player_id ≠ b.player_id) := by
  unfold resolve_player_ids at h
  cases hrr : resolveRows reg names with
  | error e => rw [hrr] at h; simp [Except.map] at h
  | ok rs =>
    rw [hrr] at h
    simp only [Except.map, Except.ok.injEq] at h
    rw [← h]
    exact dedupRows_pairwise DimRow.player_id [] rs

theorem resolve_player_ids_unique_witness :
    List.Pairwise (fun a b : DimRow => a.player_id ≠ b.player_id)
      [{ player_id := 2, player_name := "a", full_name_registry := "A Two",
         is_active := some true },
       { player_id := 4, player_name := "b", full_name_registry := "B",
         is_active := none }] :=
  resolve_player_ids_unique regW ["a", "b", "a"]
    [{ player_id := 2, player_name := "a", full_name_registry := "A Two",
       is_active := some true },
     { player_id := 4, player_name := "b", full_name_registry := "B",
       is_active := none }] rfl

/-! ## Column-mask lemmas -/

theorem mem_of_mem_applyMask (bs : List Bool) (xs : List α) :
    ∀ x ∈ applyMask bs xs, x ∈ xs := by
  induction bs generalizing xs with
  | nil => intro x hx; simp [applyMask] at hx
  | cons b bs ih =>
    intro x hx
    cases xs with
    | nil => simp [applyMask] at hx
    | cons y ys =>
      cases b with
      | true =>
        simp only [applyMask] at hx
        rcases List.mem_cons.1 hx with h' | h'
        · exact h' ▸ List.mem_cons_self _ _
        · exact List.mem_cons_of_mem _ (ih ys x h')
      | false =>
        simp only [applyMask] at hx
        exact List.mem_cons_of_mem _ (ih ys x hx)

theorem applyMask_nil_right (bs : List Bool) : applyMask bs ([] : List α) = [] := by
  cases bs with
  | nil => rfl
  | cons b bs => cases b <;> rfl

theorem getEntry_applyMask_dupMask :
    ∀ (seen cs : List String) (vs : List Val) (n : String), n ∉ seen →
      getEntry (applyMask (dupMask seen cs) cs) (applyMask (dupMask seen cs) vs) n =
        getEntry cs vs n := by
  intro seen cs
  induction cs generalizing seen with
  | nil => intro vs n _; simp [dupMask, applyMask, getEntry]
  | cons c cs ih =>
    intro vs n hn
    cases vs with
    | nil =>
      rw [applyMask_nil_right, getEntry_nil_row, getEntry_nil_row]
    | cons v vs =>
      simp only [dupMask]
      by_cases hc : c ∈ seen
      · have hcn : ¬ c = n := fun h => hn (h ▸ hc)
        have hn' : n ∉ c :: seen := by
          simp only [List.mem_cons, not_or]
          exact ⟨fun h => hcn h.symm, hn⟩
        rw [if_pos hc]
        simp only [applyMask, getEntry, if_neg hcn]
        exact ih (c :: seen) vs n hn'
      · rw [if_neg hc]
        simp only [applyMask, getEntry]
        by_cases hcn : c = n
        · simp [hcn]
        · have hn' : n ∉ c :: seen := by
            simp only [List.mem_cons, not_or]
            exact ⟨fun h => hcn h.symm, hn⟩
          simp only [if_neg hcn]
          exact ih (c :: seen) vs n hn'

theorem mem_applyMask_dupMask :
    ∀ (seen cs : List String) (n : String),
      n ∈ applyMask (dupMask seen cs) cs ↔ (n ∈ cs ∧ n ∉ seen) := by
  intro seen cs
  induction cs generalizing seen with
  | nil => intro n; simp [dupMask, applyMask]
  | cons c cs ih =>
    intro n
    simp only [dupMask]
    by_cases hc : c ∈ seen
    · rw [if_pos hc]
      simp only [applyMask]
      rw [ih (c :: seen)]
      constructor
      · rintro ⟨h1, h2⟩
        exact ⟨List.mem_cons_of_mem _ h1, fun hs => h2 (List.mem_cons_of_mem _ hs)⟩
      · rintro ⟨h1, h2⟩
        refine ⟨?_, ?_⟩
        · rcases List.mem_cons.1 h1 with h' | h'
          · exact absurd (h' ▸ hc) h2
          · exact h'
        · intro hs
          rcases List.mem_cons.1 hs with h' | h'
          · exact h2 (h' ▸ hc)
          · exact h2 h'
    · rw [if_neg hc]
      simp only [applyMask, List.mem_cons]
      rw [ih (c :: seen)]
      constructor
      · rintro (h' | ⟨h1, h2⟩)
        · exact ⟨Or.inl h', h' ▸ hc⟩
        · exact ⟨Or.inr h1, fun hs => h2 (List.mem_cons_of_mem _ hs)⟩
      · rintro ⟨h1 | h1, h2⟩
        · exact Or.inl h1
        · by_cases hnc : n = c
          · exact Or.inl hnc
          · exact Or.inr ⟨h1, by simp [hnc, h2]⟩

theorem nodup_applyMask_dupMask :
    ∀ (seen cs : List String), (applyMask (dupMask seen cs) cs).Nodup := by
  intro seen cs
  induction cs generalizing seen with
  | nil => simp [dupMask, applyMask]
  | cons c cs ih =>
    simp only [dupMask]
    by_cases hc : c ∈ seen
    · rw [if_pos hc]
      simp only [applyMask]
      exact ih (c :: seen)
    · rw [if_neg hc]
      simp only [applyMask, List.nodup_cons]
      refine ⟨?_, ih (c :: seen)⟩
      intro hmem
      exact ((mem_applyMask_dupMask (c :: seen) cs c).1 hmem).2 (List.mem_cons_self _ _)

theorem length_applyMask_eq (bs : List Bool) :
    ∀ (xs : List α) (ys : List β), xs.length = ys.length →
      (applyMask bs xs).length = (applyMask bs ys).length := by
  induction bs with
  | nil => intro xs ys _; simp [applyMask]
  | cons b bs ih =>
    intro xs ys h
    cases xs with
    | nil =>
      cases ys with
      | nil =>
        rw [applyMask_nil_right, applyMask_nil_right]
        rfl
      | cons y ys => simp at h
    | cons x xs =>
      cases ys with
      | nil => simp at h
      | cons y ys =>
        cases b with
        | true =>
          simp only [applyMask, List.length_cons]
          rw [ih xs ys (by simpa using h)]
        | false =>
          simp only [applyMask]
          exact ih xs ys (by simpa using h)

/-- Structural description of `dropDupCols`: it applies one fixed
row-transformation to every row, preserves label lookups (first
occurrences survive), preserves label membership, leaves labels
duplicate-free and keeps rows rectangular. -/
theorem dropDupCols_spec (df : DF) :
    ∃ g : List Val → List Val,
      (dropDupCols df).rows = df.rows.map g ∧
      (∀ (r : List Val) (n : String),
        getEntry (dropDupCols df).cols (g r) n = getEntry df.cols r n) ∧
      (∀ n, n ∈ (dropDupCols df).cols ↔ n ∈ df.cols) ∧
      (dropDupCols df).cols.Nodup ∧
      (∀ r : List Val, r.length = df.cols.length →
        (g r).length = (dropDupCols df).cols.length) := by
  unfold dropDupCols
  by_cases hnd : df.cols.Nodup
  · refine ⟨id, ?_, ?_, ?_, ?_, ?_⟩ <;> simp [hnd]
  · refine ⟨applyMask (dupMask [] df.cols), ?_, ?_, ?_, ?_, ?_⟩
    · simp [hnd]
    · intro r n
      simp only [hnd, if_false]
      exact getEntry_applyMask_dupMask [] df.cols r n (List.not_mem_nil n)
    · intro n
      simp only [hnd, if_false]
      rw [mem_applyMask_dupMask]
      simp
    · simp only [hnd, if_false]
      exact nodup_applyMask_dupMask [] df.cols
    · intro r hr
      simp only [hnd, if_false]
      exact length_applyMask_eq (dupMask [] df.cols) r df.cols hr

/-! ## Date-coercion lemmas -/

theorem length_coerceVals (c : Val → Val) :
    ∀ (cs : List String) (vs : List Val), (coerceVals c cs vs).length = vs.length := by
  intro cs
  induction cs with
  | nil => intro vs; cases vs <;> rfl
  | cons n cs ih =>
    intro vs
    cases vs with
    | nil => rfl
    | cons v vs => simp [coerceVals, ih vs]

theorem getEntry_coerceVals (c : Val → Val) :
    ∀ (cs : List String) (vs : List Val) (n : String),
      getEntry cs (coerceVals c cs vs) n =
        (getEntry cs vs n).map (fun v => if n = "game_date" then c v else v) := by
  intro cs
  induction cs with
  | nil => intro vs n; simp [getEntry]
  | cons c0 cs ih =>
    intro vs n
    cases vs with
    | nil => simp [coerceVals, getEntry_nil_row]
    | cons v vs =>
      simp only [coerceVals, getEntry]
      by_cases hc : c0 = n
      · subst hc
        simp
      · simp only [if_neg hc]
        exact ih vs n

/-- Structural description of `coerceGameDate`: columns unchanged, one
fixed row transformation, the `game_date` entry coerced and every other
entry unchanged, row lengths preserved. -/
theorem coerceGameDate_spec (c : Val → Val) (df : DF) :
    ∃ g : List Val → List Val,
      (coerceGameDate c df).cols = df.cols ∧
      (coerceGameDate c df).rows = df.rows.map g ∧
      (∀ (r : List Val) (n : String),
        getEntry df.cols (g r) n =
          (getEntry df.cols r n).map (fun v => if n = "game_date" then c v else v)) ∧
      (∀ r : List Val, (g r).length = r.length) := by
  unfold coerceGameDate
  by_cases hgd : "game_date" ∈ df.cols
  · refine ⟨coerceVals c df.cols, by simp [hgd], by simp [hgd], ?_, length_coerceVals c df.cols⟩
    intro r n
    exact getEntry_coerceVals c df.cols r n
  · refine ⟨id, by simp [hgd], by simp [hgd], ?_, fun r => rfl⟩
    intro r n
    simp only [id_eq]
    by_cases hn : n = "game_date"
    · subst hn
      rw [getEntry_eq_none_of_not_mem df.cols r _ hgd]
      rfl
    · cases h : getEntry df.cols r n with
      | none => rfl
      | some v => simp [hn]

theorem cleanKeyCols_of_mem (cols : List String) (h1 : "player_id" ∈ cols)
    (h2 : "game_id" ∈ cols) (h3 : "season" ∈ cols) :
    cleanKeyCols cols = ["player_id", "game_id", "season"] := by
  simp [cleanKeyCols, h1, h2, h3]

/-! ## Deduplication on the natural key (`clean_player_games`) -/

theorem cols_ne_nil_of_mem_lower {df : DF} {n : String}
    (h : n ∈ df.cols.map lowerStr) : df.cols ≠ [] := by
  intro hc
  rw [hc] at h
  simp at h

theorem isEmpty_rows_eq_nil {df : DF} (he : df.isEmpty = true) (hc : df.cols ≠ []) :
    df.rows = [] := by
  unfold DF.isEmpty at he
  rcases Bool.or_eq_true_iff.1 he with h | h
  · exact List.isEmpty_iff.1 h
  · exact absurd (List.isEmpty_iff.1 h) hc

/-- C2: on any table carrying the natural-key columns, `clean_player_games`
deduplicates its rows on the composite key (player_id, game_id, season):
no two output rows share a key value, and every key value present in the
input is represented by exactly one output row.  (Keys are read through
the lowercased column labels, as the function normalizes labels first.) -/
theorem clean_player_games_dedup_key (c : Val → Val) (df : DF) (hrect : df.Rect)
    (h1 : "player_id" ∈ df.cols.map lowerStr)
    (h2 : "game_id" ∈ df.cols.map lowerStr)
    (h3 : "season" ∈ df.cols.map lowerStr) :
    ((clean_player_games c df).rows.Pairwise (fun r1 r2 =>
      keyOfRow (clean_player_games c df).cols ["player_id", "game_id", "season"] r1 ≠
      keyOfRow (clean_player_games c df).cols ["player_id", "game_id", "season"] r2)) ∧
    (∀ r0 ∈ df.rows,
      ((clean_player_games c df).rows.countP (fun r =>
        decide (keyOfRow (clean_player_games c df).cols ["player_id", "game_id", "season"] r =
          keyOfRow (df.cols.map lowerStr) ["player_id", "game_id", "season"] r0))) = 1) := by
  by_cases hne : df.isEmpty = true
  · have hrows : df.rows = [] := isEmpty_rows_eq_nil hne (cols_ne_nil_of_mem_lower h1)
    have hcl : clean_player_games c df = df := by
      unfold clean_player_games
      rw [if_pos hne]
    rw [hcl, hrows]
    exact ⟨List.Pairwise.nil, fun r0 h => absurd h (List.not_mem_nil r0)⟩
  · -- main branch
    obtain ⟨g1, hg1rows, hg1get, hg1mem, hg1nodup, hg1len⟩ :=
      dropDupCols_spec { cols := df.cols.map lowerStr, rows := df.rows }
    obtain ⟨g2, hg2cols, hg2rows, hg2get, hg2len⟩ :=
      coerceGameDate_spec c (dropDupCols { cols := df.cols.map lowerStr, rows := df.rows })
    set D2cols := (dropDupCols { cols := df.cols.map lowerStr, rows := df.rows }).cols with hD2def
    set g : List Val → List Val := fun r => g2 (g1 r) with hgdef
    have hg1get' : ∀ (r : List Val) (n : String),
        getEntry D2cols (g1 r) n = getEntry (List.map lowerStr df.cols) r n := hg1get
    have hg1len' : ∀ r : List Val, r.length = (List.map lowerStr df.cols).length →
        (g1 r).length = D2cols.length := hg1len
    -- membership of the key columns in the processed labels
    have hm1 : "player_id" ∈ D2cols := (hg1mem _).2 h1
    have hm2 : "game_id" ∈ D2cols := (hg1mem _).2 h2
    have hm3 : "season" ∈ D2cols := (hg1mem _).2 h3
    have hkc : cleanKeyCols D2cols = ["player_id", "game_id", "season"] :=
      cleanKeyCols_of_mem D2cols hm1 hm2 hm3
    have hkeep1 : "player_id" ∈ keepCols D2cols :=
      List.mem_filter.2 ⟨hm1, by decide⟩
    have hkeep2 : "game_id" ∈ keepCols D2cols :=
      List.mem_filter.2 ⟨hm2, by decide⟩
    have hkeep3 : "season" ∈ keepCols D2cols :=
      List.mem_filter.2 ⟨hm3, by decide⟩
    have hkeepne : keepCols D2cols ≠ [] := List.ne_nil_of_mem hkeep1
    -- the composite row transformation applied before deduplication
    have hgget : ∀ (r : List Val) (n : String), n ≠ "game_date" →
        getEntry D2cols (g r) n = getEntry (List.map lowerStr df.cols) r n := by
      intro r n hn
      show getEntry D2cols (g2 (g1 r)) n = _
      rw [hg2get (g1 r) n, hg1get' r n]
      cases getEntry (List.map lowerStr df.cols) r n <;> simp [hn]
    have hglen : ∀ r : List Val, r.length = df.cols.length → (g r).length = D2cols.length := by
      intro r hr
      show (g2 (g1 r)).length = D2cols.length
      rw [hg2len (g1 r)]
      exact hg1len' r (by simpa using hr)
    -- the coerced frame is the mapped frame
    have hD3 : coerceGameDate c
        (dropDupCols { cols := df.cols.map lowerStr, rows := df.rows }) =
        { cols := D2cols, rows := df.rows.map g } := by
      have hcolsq : (coerceGameDate c
          (dropDupCols { cols := df.cols.map lowerStr, rows := df.rows })).cols = D2cols :=
        hg2cols
      have hrowsq : (coerceGameDate c
          (dropDupCols { cols := df.cols.map lowerStr, rows := df.rows })).rows =
          df.rows.map g := by
        rw [hg2rows, hg1rows, List.map_map]
        rfl
      calc coerceGameDate c (dropDupCols { cols := df.cols.map lowerStr, rows := df.rows })
          = { cols := (coerceGameDate c
                (dropDupCols { cols := df.cols.map lowerStr, rows := df.rows })).cols,
              rows := (coerceGameDate c
                (dropDupCols { cols := df.cols.map lowerStr, rows := df.rows })).rows } := rfl
        _ = { cols := D2cols, rows := df.rows.map g } := by rw [hcolsq, hrowsq]
    -- unfold the function on the main branch
    have hclean : clean_player_games c df =
        selectCols
          { cols := D2cols,
            rows := dedupRows (keyOfRow D2cols ["player_id", "game_id", "season"]) []
              (df.rows.map g) }
          (keepCols D2cols) := by
      unfold clean_player_games
      rw [if_neg hne]
      simp only [hD3, hkc]
      rw [if_neg (by simp : ¬(["player_id", "game_id", "season"] = ([] : List String)))]
      rw [if_neg hkeepne]
    -- abbreviations for the final pieces
    set kl : List String := ["player_id", "game_id", "season"] with hkldef
    set K := keyOfRow D2cols kl with hKdef
    set dOut := dedupRows K [] (df.rows.map g) with hdOutdef
    set keep := keepCols D2cols with hkeepdef
    set proj : List Val → List Val :=
      fun r => keep.map (fun n => (getEntry D2cols r n).getD Val.null) with hprojdef
    have houtrows : (clean_player_games c df).rows = dOut.map proj := by
      rw [hclean]
      rfl
    have houtcols : (clean_player_games c df).cols = keep := by
      rw [hclean]
      rfl
    -- rows surviving deduplication are rectangular images of input rows
    have hlen_mem : ∀ r ∈ dOut, r.length = D2cols.length := by
      intro r hr
      have hr2 : r ∈ df.rows.map g := mem_of_mem_dedupRows K [] _ r hr
      obtain ⟨r0, hr0, hr0e⟩ := List.mem_map.1 hr2
      rw [← hr0e]
      exact hglen r0 (hrect r0 hr0)
    -- projection preserves the natural key
    have hproj_key : ∀ r : List Val, r.length = D2cols.length →
        keyOfRow keep kl (proj r) = K r := by
      intro r hr
      have hcomp : ∀ k : String, k ∈ keep →
          getEntry keep (proj r) k = getEntry D2cols r k := by
        intro k hk
        simp only [hprojdef]
        rw [getEntry_map_self keep _ k hk]
        have hmemk : k ∈ D2cols := (List.mem_filter.1 (hkeepdef ▸ hk)).1
        have hsome := getEntry_isSome_of_mem D2cols r k hmemk hr
        obtain ⟨v, hv⟩ := Option.isSome_iff_exists.1 hsome
        rw [hv]
        rfl
      rw [hKdef, hkldef]
      simp only [keyOfRow, List.map_cons, List.map_nil]
      rw [hcomp _ hkeep1, hcomp _ hkeep2, hcomp _ hkeep3]
    -- the key of a transformed row is the key of the input row
    have hg_key : ∀ r0 : List Val,
        K (g r0) = keyOfRow (df.cols.map lowerStr) kl r0 := by
      intro r0
      rw [hKdef, hkldef]
      simp only [keyOfRow, List.map_cons, List.map_nil]
      rw [hgget r0 "player_id" (by decide), hgget r0 "game_id" (by decide),
        hgget r0 "season" (by decide)]
    constructor
    · rw [houtrows, houtcols]
      rw [List.pairwise_map]
      refine List.Pairwise.imp_of_mem ?_ (dedupRows_pairwise K [] (df.rows.map g))
      intro a b ha hb hne2
      rw [hproj_key a (hlen_mem a ha), hproj_key b (hlen_mem b hb)]
      exact hne2
    · intro r0 hr0
      rw [houtrows, houtcols]
      rw [List.countP_map]
      have hcong : dOut.countP
          ((fun r => decide (keyOfRow keep kl r =
            keyOfRow (df.cols.map lowerStr) kl r0)) ∘ proj) =
          dOut.countP (fun r => decide (K r =
            keyOfRow (df.cols.map lowerStr) kl r0)) := by
        refine List.countP_congr ?_
        intro a ha
        simp only [Function.comp_apply, decide_eq_true_eq]
        rw [hproj_key a (hlen_mem a ha)]
      rw [hcong, hdOutdef]
      refine dedupRows_countP_eq_one K _ [] (df.rows.map g) (List.not_mem_nil _) ?_
      exact ⟨g r0, List.mem_map_of_mem g hr0, hg_key r0⟩

theorem clean_player_games_dedup_key_witness :
    ((clean_player_games id dfW).rows.Pairwise (fun r1 r2 =>
      keyOfRow (clean_player_games id dfW).cols ["player_id", "game_id", "season"] r1 ≠
      keyOfRow (clean_player_games id dfW).cols ["player_id", "game_id", "season"] r2)) ∧
    (∀ r0 ∈ dfW.rows,
      ((clean_player_games id dfW).rows.countP (fun r =>
        decide (keyOfRow (clean_player_games id dfW).cols ["player_id", "game_id", "season"] r =
          keyOfRow (dfW.cols.map lowerStr) ["player_id", "game_id", "season"] r0))) = 1) :=
  clean_player_games_dedup_key id dfW (by decide) (by decide) (by decide) (by decide)

/-! ## Schema normalization (`clean_player_games`) -/

/-- C7: on a non-empty rectangular table, `clean_player_games` lowercases
every column label, drops duplicate labels (its labels end up
duplicate-free), coerces the `game_date` column through the date coercion
when present, and projects onto the curated allow-list, falling back to
keeping all (deduplicated, lowercased) columns when no allow-listed column
is present. -/
theorem clean_player_games_schema (c : Val → Val) (df : DF) (hrect : df.Rect)
    (hne : ¬ df.isEmpty = true) :
    (∀ n ∈ (clean_player_games c df).cols, ∃ m ∈ df.cols, n = lowerStr m) ∧
    ((clean_player_games c df).cols.Nodup) ∧
    ("game_date" ∈ (clean_player_games c df).cols →
      ∀ r ∈ (clean_player_games c df).rows,
        ∃ v, getEntry (clean_player_games c df).cols r "game_date" = some (c v)) ∧
    (keepCols (dropDupCols { cols := df.cols.map lowerStr, rows := df.rows }).cols = [] →
      (clean_player_games c df).cols =
        (dropDupCols { cols := df.cols.map lowerStr, rows := df.rows }).cols) ∧
    (keepCols (dropDupCols { cols := df.cols.map lowerStr, rows := df.rows }).cols ≠ [] →
      ∀ n ∈ (clean_player_games c df).cols, n ∈ allowListP) := by
  obtain ⟨g1, hg1rows, hg1get, hg1mem, hg1nodup, hg1len⟩ :=
    dropDupCols_spec { cols := df.cols.map lowerStr, rows := df.rows }
  obtain ⟨g2, hg2cols, hg2rows, hg2get, hg2len⟩ :=
    coerceGameDate_spec c (dropDupCols { cols := df.cols.map lowerStr, rows := df.rows })
  set D2cols := (dropDupCols { cols := df.cols.map lowerStr, rows := df.rows }).cols with hD2def
  set g : List Val → List Val := fun r => g2 (g1 r) with hgdef
  have hg1len' : ∀ r : List Val, r.length = (List.map lowerStr df.cols).length →
      (g1 r).length = D2cols.length := hg1len
  have hD3 : coerceGameDate c
      (dropDupCols { cols := df.cols.map lowerStr, rows := df.rows }) =
      { cols := D2cols, rows := df.rows.map g } := by
    have hcolsq : (coerceGameDate c
        (dropDupCols { cols := df.cols.map lowerStr, rows := df.rows })).cols = D2cols :=
      hg2cols
    have hrowsq : (coerceGameDate c
        (dropDupCols { cols := df.cols.map lowerStr, rows := df.rows })).rows =
        df.rows.map g := by
      rw [hg2rows, hg1rows, List.map_map]
      rfl
    calc coerceGameDate c (dropDupCols { cols := df.cols.map lowerStr, rows := df.rows })
        = { cols := (coerceGameDate c
              (dropDupCols { cols := df.cols.map lowerStr, rows := df.rows })).cols,
            rows := (coerceGameDate c
              (dropDupCols { cols := df.cols.map lowerStr, rows := df.rows })).rows } := rfl
      _ = { cols := D2cols, rows := df.rows.map g } := by rw [hcolsq, hrowsq]
  -- the cleaned frame in both deduplication branches
  have hmain : ∃ rows4 : List (List Val),
      (∀ r ∈ rows4, r ∈ df.rows.map g) ∧
      clean_player_games c df =
        (if keepCols D2cols = [] then ({ cols := D2cols, rows := rows4 } : DF)
         else selectCols { cols := D2cols, rows := rows4 } (keepCols D2cols)) := by
    by_cases hkc : cleanKeyCols D2cols = []
    · refine ⟨df.rows.map g, fun r hr => hr, ?_⟩
      unfold clean_player_games
      rw [if_neg hne]
      simp only [hD3, hkc, if_true]
    · refine ⟨dedupRows (keyOfRow D2cols (cleanKeyCols D2cols)) [] (df.rows.map g),
        fun r hr => mem_of_mem_dedupRows _ [] _ r hr, ?_⟩
      unfold clean_player_games
      rw [if_neg hne]
      simp only [hD3]
      rw [if_neg hkc]
  obtain ⟨rows4, hrows4sub, hcleaneq⟩ := hmain
  -- the coerced value sitting in the game_date column of a processed row
  have hgd_val : ∀ r' ∈ df.rows.map g, "game_date" ∈ D2cols →
      ∃ v, getEntry D2cols r' "game_date" = some (c v) := by
    intro r' hr' hgd
    obtain ⟨r0, hr0, hre⟩ := List.mem_map.1 hr'
    rw [← hre]
    show ∃ v, getEntry D2cols (g2 (g1 r0)) "game_date" = some (c v)
    rw [hg2get (g1 r0) "game_date"]
    have hlen1 : (g1 r0).length = D2cols.length :=
      hg1len' r0 (by simpa using hrect r0 hr0)
    have hsome := getEntry_isSome_of_mem D2cols (g1 r0) _ hgd hlen1
    obtain ⟨v, hv⟩ := Option.isSome_iff_exists.1 hsome
    rw [hv]
    exact ⟨v, by simp⟩
  have hlower : ∀ n ∈ D2cols, ∃ m ∈ df.cols, n = lowerStr m := by
    intro n hn
    have : n ∈ List.map lowerStr df.cols := (hg1mem n).1 hn
    obtain ⟨m, hm, hme⟩ := List.mem_map.1 this
    exact ⟨m, hm, hme.symm⟩
  by_cases hkeep : keepCols D2cols = []
  · rw [hcleaneq, if_pos hkeep]
    refine ⟨hlower, hg1nodup, ?_, fun _ => rfl, fun h => absurd hkeep h⟩
    intro hgd r hr
    exact hgd_val r (hrows4sub r hr) hgd
  · rw [hcleaneq, if_neg hkeep]
    refine ⟨?_, ?_, ?_, fun h => absurd h hkeep, ?_⟩
    · intro n hn
      simp only [selectCols] at hn
      exact hlower n (List.mem_filter.1 hn).1
    · simp only [selectCols]
      exact List.Nodup.filter _ hg1nodup
    · intro hgd r hr
      simp only [selectCols] at hgd hr ⊢
      obtain ⟨r', hr', hre⟩ := List.mem_map.1 hr
      have hgdD2 : "game_date" ∈ D2cols := (List.mem_filter.1 hgd).1
      obtain ⟨v, hv⟩ := hgd_val r' (hrows4sub r' hr') hgdD2
      refine ⟨v, ?_⟩
      rw [← hre]
      rw [getEntry_map_self (keepCols D2cols) _ _ hgd]
      rw [hv]
      rfl
    · intro _ n hn
      simp only [selectCols] at hn
      exact of_decide_eq_true (List.mem_filter.1 hn).2

theorem clean_player_games_schema_witness :
    (∀ n ∈ (clean_player_games id dfW).cols, ∃ m ∈ dfW.cols, n = lowerStr m) ∧
    ((clean_player_games id dfW).cols.Nodup) ∧
    ("game_date" ∈ (clean_player_games id dfW).cols →
      ∀ r ∈ (clean_player_games id dfW).rows,
        ∃ v, getEntry (clean_player_games id dfW).cols r "game_date" = some (id v)) ∧
    (keepCols (dropDupCols { cols := dfW.cols.map lowerStr, rows := dfW.rows }).cols = [] →
      (clean_player_games id dfW).cols =
        (dropDupCols { cols := dfW.cols.map lowerStr, rows := dfW.rows }).cols) ∧
    (keepCols (dropDupCols { cols := dfW.cols.map lowerStr, rows := dfW.rows }).cols ≠ [] →
      ∀ n ∈ (clean_player_games id dfW).cols, n ∈ allowListP) :=
  clean_player_games_schema id dfW (by decide) (by decide)

/-! ## Entry lookup in extended rows -/

theorem getEntry_append (cols : List String) :
    ∀ (r : List Val), r.length = cols.length →
      ∀ (cs2 : List String) (vs2 : List Val) (n : String),
        getEntry (cols ++ cs2) (r ++ vs2) n =
          (getEntry cols r n).elim (getEntry cs2 vs2 n) some := by
  induction cols with
  | nil =>
    intro r h cs2 vs2 n
    have hr : r = [] := List.length_eq_zero.1 (by simpa using h)
    subst hr
    simp [getEntry, Option.elim]
  | cons c cs ih =>
    intro r h cs2 vs2 n
    cases r with
    | nil => simp at h
    | cons v vs =>
      simp only [List.cons_append, getEntry]
      by_cases hc : c = n
      · simp [hc, Option.elim]
      · simp only [if_neg hc]
        exact ih vs (by simpa using h) cs2 vs2 n

theorem getEntry_append_extra (cols extra : List String) (r0 vs : List Val)
    (hlen : r0.length = cols.length) (n : String) (hn : n ∉ extra) :
    getEntry (cols ++ extra) (r0 ++ vs) n = getEntry cols r0 n := by
  rw [getEntry_append cols r0 hlen extra vs n]
  rw [getEntry_eq_none_of_not_mem extra vs n hn]
  cases getEntry cols r0 n <;> rfl

theorem getD_eq_get (l : List α) (d : α) (j : Nat) (h : j < l.length) :
    l.getD j d = l.get ⟨j, h⟩ := by
  rw [List.getD_eq_getElem?_getD, List.getElem?_eq_getElem h]
  simp

theorem getD_mem (l : List α) (d : α) (j : Nat) (h : j < l.length) :
    l.getD j d ∈ l := by
  rw [getD_eq_get l d j h]
  exact List.get_mem l j h

theorem getD_eq_default_of_le (l : List α) (d : α) (j : Nat) (h : l.length ≤ j) :
    l.getD j d = d := by
  rw [List.getD_eq_getElem?_getD, List.getElem?_eq_none h]
  rfl

theorem zip_append_getD (l1 : List (List Val)) :
    ∀ (l2 : List Val) (j : Nat), l1.length ≤ l2.length → j < l1.length →
      ((l1.zip l2).map (fun p => p.1 ++ [p.2])).getD j [] =
        l1.getD j [] ++ [l2.getD j Val.null] := by
  induction l1 with
  | nil => intro l2 j _ hj; simp at hj
  | cons r l1 ih =>
    intro l2 j hle hj
    cases l2 with
    | nil => simp at hle
    | cons v l2 =>
      cases j with
      | zero => rfl
      | succ j =>
        simp only [List.zip_cons_cons, List.map_cons, List.getD_cons_succ]
        exact ih l2 j (by simpa using hle) (by simpa using hj)

theorem zip_append_length (l1 : List (List Val)) (l2 : List Val)
    (h : l1.length ≤ l2.length) :
    ((l1.zip l2).map (fun p => p.1 ++ [p.2])).length = l1.length := by
  simp only [List.length_map, List.length_zip]
  omega

theorem forall₂_ext_zip_append {l1 lb : List (List Val)}
    (hF : List.Forall₂ (fun r' r0 => ∃ vs, r' = r0 ++ vs) l1 lb) :
    ∀ (l2 : List Val), l1.length ≤ l2.length →
      List.Forall₂ (fun r' r0 => ∃ vs, r' = r0 ++ vs)
        ((l1.zip l2).map (fun p => p.1 ++ [p.2])) lb := by
  induction hF with
  | nil => intro l2 _; simp [List.Forall₂.nil]
  | @cons a b l1' lb' hR hF ih =>
    intro l2 hle
    cases l2 with
    | nil => simp at hle
    | cons v l2 =>
      simp only [List.zip_cons_cons, List.map_cons]
      refine List.Forall₂.cons ?_ (ih l2 (by simpa using hle))
      obtain ⟨vs, rfl⟩ := hR
      exact ⟨vs ++ [v], by simp⟩

theorem forall₂_ext_map_take (L : Nat) {l1 l0 : List (List Val)}
    (hF : List.Forall₂ (fun r' r0 => ∃ vs, r' = r0 ++ vs) l1 l0)
    (hlen : ∀ r ∈ l0, r.length = L) :
    l1.map (fun r => r.take L) = l0 := by
  induction hF with
  | nil => rfl
  | @cons a b l1' l0' hR hF ih =>
    obtain ⟨vs, rfl⟩ := hR
    simp only [List.map_cons]
    rw [ih (fun r hr => hlen r (List.mem_cons_of_mem _ hr))]
    rw [List.take_left' (hlen b (List.mem_cons_self _ _))]

/-! ## Rolling-window bookkeeping -/

theorem filter_take_prefix (P : α → Bool) :
    ∀ (l : List α) (n : Nat),
      (l.filter P).take (((l.take n).filter P).length) = (l.take n).filter P := by
  intro l
  induction l with
  | nil => intro n; simp
  | cons x xs ih =>
    intro n
    cases n with
    | zero => simp
    | succ n =>
      simp only [List.take_succ_cons, List.filter_cons]
      by_cases hx : P x = true
      · rw [if_pos hx, if_pos hx, List.length_cons, List.take_succ_cons, ih n]
      · rw [if_neg hx, if_neg hx]
        exact ih n

theorem filterMap_id_of_isSome :
    ∀ (w : List (Option Rat)), (∀ x ∈ w, x.isSome) →
      w.filterMap id = w.map (fun o => o.getD 0) := by
  intro w
  induction w with
  | nil => intro _; rfl
  | cons o w ih =>
    intro h
    obtain ⟨v, hv⟩ := Option.isSome_iff_exists.1 (h o (List.mem_cons_self _ _))
    subst hv
    simp only [List.filterMap_cons, id, List.map_cons, Option.getD_some]
    rw [ih (fun x hx => h x (List.mem_cons_of_mem _ hx))]

theorem transformRoll_length (cols : List String) (name : String)
    (rows : List (List Val)) :
    (transformRoll cols name rows).length = rows.length := by
  simp [transformRoll]

theorem getD_map_range (n : Nat) (f : Nat → α) (d : α) (j : Nat) (hj : j < n) :
    ((List.range n).map f).getD j d = f j := by
  rw [List.getD_eq_getElem?_getD, List.getElem?_map]
  rw [List.getElem?_range hj]
  rfl

theorem filter_map_congr_forall₂ {R : α → β → Prop}
    (p1 : α → Bool) (p2 : β → Bool) (f1 : α → γ) (f2 : β → γ)
    (hpt : ∀ a b, R a b → p1 a = p2 b ∧ f1 a = f2 b) :
    ∀ {l1 : List α} {l2 : List β}, List.Forall₂ R l1 l2 →
      (l1.filter p1).map f1 = (l2.filter p2).map f2 := by
  intro l1 l2 hF
  induction hF with
  | nil => rfl
  | @cons a b l1' l2' hR hF ih =>
    obtain ⟨hp, hf⟩ := hpt a b hR
    simp only [List.filter_cons, hp]
    by_cases hb : p2 b = true
    · rw [if_pos hb, if_pos hb, List.map_cons, List.map_cons, hf, ih]
    · rw [if_neg hb, if_neg hb]
      exact ih

theorem not_mem_if_singleton {P : Prop} [Decidable P] {x n : α} (h : n ≠ x) :
    n ∉ (if P then [x] else []) := by
  by_cases hP : P <;> simp [hP, h]

/-- Rows extended on the right by extra columns keep their group key and
their observed statistic, as long as the looked-up labels are not among
the extra columns. -/
theorem forall₂_ext_key_obs (cols0 extra : List String) (name : String)
    (hpid : "player_id" ∉ extra) (hseas : "season" ∉ extra) (hname : name ∉ extra)
    {l1 l0 : List (List Val)}
    (hF : List.Forall₂ (fun r' r0 => ∃ vs, r' = r0 ++ vs) l1 l0)
    (hlen : ∀ r ∈ l0, r.length = cols0.length) :
    List.Forall₂ (fun r1 r2 => groupKey (cols0 ++ extra) r1 = groupKey cols0 r2 ∧
      colObs (cols0 ++ extra) name r1 = colObs cols0 name r2) l1 l0 := by
  induction hF with
  | nil => exact List.Forall₂.nil
  | @cons a b l1' l0' hR hF ih =>
    refine List.Forall₂.cons ?_ (ih (fun r hr => hlen r (List.mem_cons_of_mem _ hr)))
    obtain ⟨vs, rfl⟩ := hR
    have hb := hlen b (List.mem_cons_self _ _)
    constructor
    · unfold groupKey
      rw [getEntry_append_extra cols0 extra b vs hb _ hpid,
        getEntry_append_extra cols0 extra b vs hb _ hseas]
    · unfold colObs
      rw [getEntry_append_extra cols0 extra b vs hb _ hname]

/-- The rolling transform only looks at group keys and observations, so it
is invariant under any row representation change preserving both. -/
theorem transformRoll_congr {cols1 cols2 : List String} (name : String)
    {rows1 rows2 : List (List Val)}
    (hF : List.Forall₂ (fun r1 r2 => groupKey cols1 r1 = groupKey cols2 r2 ∧
      colObs cols1 name r1 = colObs cols2 name r2) rows1 rows2) :
    transformRoll cols1 name rows1 = transformRoll cols2 name rows2 := by
  have hlen := hF.length_eq
  have hget := (List.forall₂_iff_get.1 hF).2
  unfold transformRoll
  rw [hlen]
  refine List.map_congr_left ?_
  intro j hj
  have hj2 : j < rows2.length := by simpa using hj
  have hj1 : j < rows1.length := by rw [hlen]; exact hj2
  have hr1 : rows1.getD j [] = rows1.get ⟨j, hj1⟩ := getD_eq_get _ _ _ hj1
  have hr2 : rows2.getD j [] = rows2.get ⟨j, hj2⟩ := getD_eq_get _ _ _ hj2
  obtain ⟨hkey, hobs⟩ := hget j hj1 hj2
  simp only [hr1, hr2, hkey]
  cases hk : groupKey cols2 (rows2.get ⟨j, hj2⟩) with
  | none => rfl
  | some k =>
    have hseries : (rows1.filter (fun r2 => groupKey cols1 r2 = some k)).map
        (colObs cols1 name) =
        (rows2.filter (fun r2 => groupKey cols2 r2 = some k)).map (colObs cols2 name) := by
      refine filter_map_congr_forall₂ _ _ _ _ ?_ hF
      intro a b hab
      rw [hab.1, hab.2]
      exact ⟨rfl, rfl⟩
    have hpos : ((rows1.take j).filter (fun r2 => groupKey cols1 r2 = some k)).length =
        ((rows2.take j).filter (fun r2 => groupKey cols2 r2 = some k)).length := by
      have htake := List.forall₂_take j hF
      have := filter_map_congr_forall₂
        (fun r2 => decide (groupKey cols1 r2 = some k))
        (fun r2 => decide (groupKey cols2 r2 = some k))
        (colObs cols1 name) (colObs cols2 name)
        (fun a b hab => by simp [hab.1, hab.2]) htake
      have hml := congrArg List.length this
      simpa using hml
    simp only [hseries, hpos]

/-- Unfolding of one `addRoll` iteration when the target roll column is
not yet present: either a no-op, or an appended column. -/
theorem addRoll_eq_of_not_mem_roll (st : DF) (name : String)
    (hroll : name ++ "_roll10" ∉ st.cols) :
    addRoll st name = if name ∈ st.cols then
      { cols := st.cols ++ [name ++ "_roll10"],
        rows := (st.rows.zip (transformRoll st.cols name st.rows)).map
          (fun p => p.1 ++ [p.2]) }
    else st := by
  unfold addRoll setCol
  by_cases h : name ∈ st.cols <;> simp [h, hroll]

/-- One `addRoll` step, relative to a base frame whose rows the current
frame extends on the right: the step appends (at most) the roll column,
keeps the extension relation, preserves every existing entry, and stores
the rolling values computed over the base frame. -/
theorem addRoll_step (base st : DF) (extra : List String) (name : String)
    (hcols : st.cols = base.cols ++ extra)
    (hrect0 : ∀ r ∈ base.rows, r.length = base.cols.length)
    (hF : List.Forall₂ (fun r' r0 => ∃ vs, r' = r0 ++ vs) st.rows base.rows)
    (hrect : ∀ r ∈ st.rows, r.length = st.cols.length)
    (hrollbase : name ++ "_roll10" ∉ base.cols)
    (hrollextra : name ++ "_roll10" ∉ extra)
    (hpidextra : "player_id" ∉ extra)
    (hseasextra : "season" ∉ extra)
    (hnameextra : name ∉ extra) :
    (addRoll st name).cols =
      st.cols ++ (if name ∈ base.cols then [name ++ "_roll10"] else []) ∧
    List.Forall₂ (fun r' r0 => ∃ vs, r' = r0 ++ vs) (addRoll st name).rows base.rows ∧
    (∀ r ∈ (addRoll st name).rows, r.length = (addRoll st name).cols.length) ∧
    (∀ (n' : String) (j : Nat), n' ∈ st.cols →
      getEntry (addRoll st name).cols ((addRoll st name).rows.getD j []) n' =
        getEntry st.cols (st.rows.getD j []) n') ∧
    (name ∈ base.cols → ∀ j, j < base.rows.length →
      getEntry (addRoll st name).cols ((addRoll st name).rows.getD j []) (name ++ "_roll10") =
        some ((transformRoll base.cols name base.rows).getD j Val.null)) := by
  have hroll_st : name ++ "_roll10" ∉ st.cols := by
    rw [hcols]
    simp only [List.mem_append]
    rintro (h | h)
    · exact hrollbase h
    · exact hrollextra h
  have hmem_name : (name ∈ st.cols) ↔ (name ∈ base.cols) := by
    rw [hcols]
    simp only [List.mem_append]
    constructor
    · rintro (h | h)
      · exact h
      · exact absurd h hnameextra
    · exact Or.inl
  have htr : transformRoll st.cols name st.rows = transformRoll base.cols name base.rows := by
    rw [hcols]
    exact transformRoll_congr name
      (forall₂_ext_key_obs base.cols extra name hpidextra hseasextra hnameextra
        hF hrect0)
  rw [addRoll_eq_of_not_mem_roll st name hroll_st]
  by_cases hnm : name ∈ st.cols
  · have hnb : name ∈ base.cols := hmem_name.1 hnm
    rw [if_pos hnm, if_pos hnb]
    have hvlen : (transformRoll st.cols name st.rows).length = st.rows.length :=
      transformRoll_length _ _ _
    have hle : st.rows.length ≤ (transformRoll st.cols name st.rows).length :=
      le_of_eq hvlen.symm
    have hlenst : st.rows.length = base.rows.length := hF.length_eq
    refine ⟨rfl, ?_, ?_, ?_, ?_⟩
    · exact forall₂_ext_zip_append hF _ hle
    · intro r hr
      simp only [List.mem_map] at hr
      obtain ⟨p, hp, hpe⟩ := hr
      obtain ⟨hp1, -⟩ := List.of_mem_zip hp
      rw [← hpe]
      simp [hrect p.1 hp1]
    · intro n' j hn'
      by_cases hj : j < st.rows.length
      · rw [zip_append_getD st.rows _ j hle hj]
        have hlenj : (st.rows.getD j []).length = st.cols.length :=
          hrect _ (getD_mem st.rows [] j hj)
        have hne' : n' ∉ [name ++ "_roll10"] := by
          simp only [List.mem_singleton]
          intro he
          exact hroll_st (he ▸ hn')
        exact getEntry_append_extra st.cols [name ++ "_roll10"] _ _ hlenj n' hne'
      · have h1 : ((st.rows.zip (transformRoll st.cols name st.rows)).map
            (fun p => p.1 ++ [p.2])).length = st.rows.length :=
          zip_append_length st.rows _ hle
        rw [getD_eq_default_of_le _ _ j (by omega :
          ((st.rows.zip (transformRoll st.cols name st.rows)).map
            (fun p => p.1 ++ [p.2])).length ≤ j)]
        rw [getD_eq_default_of_le st.rows [] j (by omega)]
        rw [getEntry_nil_row, getEntry_nil_row]
    · intro _ j hj
      have hj' : j < st.rows.length := by rw [hlenst]; exact hj
      rw [zip_append_getD st.rows _ j hle hj']
      have hlenj : (st.rows.getD j []).length = st.cols.length :=
        hrect _ (getD_mem st.rows [] j hj')
      rw [getEntry_append st.cols _ hlenj [name ++ "_roll10"] _ _]
      rw [getEntry_eq_none_of_not_mem st.cols _ _ hroll_st]
      simp only [Option.elim]
      rw [htr]
      simp [getEntry]
  · have hnb : name ∉ base.cols := fun h => hnm (hmem_name.2 h)
    rw [if_neg hnm, if_neg hnb]
    refine ⟨by simp, hF, hrect, fun n' j _ => rfl, fun h => absurd h hnb⟩

theorem eq_of_mem_if_singleton {P : Prop} [Decidable P] {x n : α}
    (h : n ∈ (if P then [x] else [])) : n = x := by
  by_cases hP : P
  · rw [if_pos hP] at h
    exact List.mem_singleton.1 h
  · rw [if_neg hP] at h
    exact absurd h (List.not_mem_nil n)

theorem string_append_right_cancel {a b c : String} (h : a ++ c = b ++ c) : a = b := by
  apply String.ext
  have hd : a.data ++ c.data = b.data ++ c.data := by
    rw [← String.data_append, ← String.data_append, h]
  exact List.append_cancel_right hd

/-- A string whose last seven characters are not `_roll10` is not of the
form `m ++ "_roll10"`. -/
theorem string_ne_append_roll10 (s : String)
    (h : s.data.drop (s.data.length - 7) ≠ ("_roll10" : String).data) :
    ∀ m : String, s ≠ m ++ "_roll10" := by
  intro m he
  have hd : s.data = m.data ++ ("_roll10" : String).data := by
    rw [he, String.data_append]
  apply h
  have hlen : s.data.length = m.data.length + 7 := by
    rw [hd]
    simp
  rw [hd]
  have hm : (m.data ++ ("_roll10" : String).data).length - 7 = m.data.length := by
    simp
  rw [hm, List.drop_left]

/-- The `for col in ["pts", "reb", "ast"]` loop, relative to a base frame:
it appends only roll columns, keeps the right-extension of the base rows,
preserves existing entries, and stores in each appended roll column the
rolling values computed over the base frame. -/
theorem foldl_addRoll_spec (names : List String) :
    ∀ (base st : DF) (extra : List String),
      st.cols = base.cols ++ extra →
      (∀ r ∈ base.rows, r.length = base.cols.length) →
      List.Forall₂ (fun r' r0 => ∃ vs, r' = r0 ++ vs) st.rows base.rows →
      (∀ r ∈ st.rows, r.length = st.cols.length) →
      (∀ n ∈ names, n ++ "_roll10" ∉ base.cols) →
      (∀ n ∈ names, n ++ "_roll10" ∉ extra) →
      (∀ n ∈ names, ∀ m : String, n ≠ m ++ "_roll10") →
      (∀ n ∈ names, "player_id" ≠ n ++ "_roll10") →
      (∀ n ∈ names, "season" ≠ n ++ "_roll10") →
      ("player_id" ∉ extra) → ("season" ∉ extra) →
      (∀ n ∈ names, n ∉ extra) →
      names.Nodup →
      ∃ extra2,
        (names.foldl addRoll st).cols = st.cols ++ extra2 ∧
        (∀ n ∈ extra2, ∃ b ∈ names, n = b ++ "_roll10") ∧
        List.Forall₂ (fun r' r0 => ∃ vs, r' = r0 ++ vs)
          (names.foldl addRoll st).rows base.rows ∧
        (∀ r ∈ (names.foldl addRoll st).rows,
          r.length = (names.foldl addRoll st).cols.length) ∧
        (∀ (n' : String) (j : Nat), n' ∈ st.cols →
          getEntry (names.foldl addRoll st).cols
            ((names.foldl addRoll st).rows.getD j []) n' =
            getEntry st.cols (st.rows.getD j []) n') ∧
        (∀ b ∈ names, b ∈ base.cols → ∀ j, j < base.rows.length →
          getEntry (names.foldl addRoll st).cols
            ((names.foldl addRoll st).rows.getD j []) (b ++ "_roll10") =
            some ((transformRoll base.cols b base.rows).getD j Val.null)) := by
  induction names with
  | nil =>
    intro base st extra hcols hrect0 hF hrect _ _ _ _ _ _ _ _ _
    refine ⟨[], by simp, ?_, hF, hrect, fun n' j _ => rfl, ?_⟩
    · intro n hn
      exact absurd hn (List.not_mem_nil n)
    · intro b hb
      exact absurd hb (List.not_mem_nil b)
  | cons n ns ih =>
    intro base st extra hcols hrect0 hF hrect hrb hre hnr hpidr hseasr hpide hseae hne hnd
    have hmemn : n ∈ n :: ns := List.mem_cons_self n ns
    obtain ⟨hscols, hsF, hsrect, hspres, hsval⟩ :=
      addRoll_step base st extra n hcols hrect0 hF hrect
        (hrb n hmemn) (hre n hmemn) hpide hseae (hne n hmemn)
    have hnotmem_ns : n ∉ ns := (List.nodup_cons.1 hnd).1
    have hnd' : ns.Nodup := (List.nodup_cons.1 hnd).2
    have hcols' : (addRoll st n).cols =
        base.cols ++ (extra ++ (if n ∈ base.cols then [n ++ "_roll10"] else [])) := by
      rw [hscols, hcols, List.append_assoc]
    obtain ⟨extra2, hc1, hc2, hc3, hc4, hc5, hc6⟩ :=
      ih base (addRoll st n) (extra ++ (if n ∈ base.cols then [n ++ "_roll10"] else []))
        hcols' hrect0 hsF hsrect
        (fun m hm => hrb m (List.mem_cons_of_mem _ hm))
        (fun m hm => by
          simp only [List.mem_append]
          rintro (h | h)
          · exact hre m (List.mem_cons_of_mem _ hm) h
          · have := eq_of_mem_if_singleton h
            have hmn : m = n := string_append_right_cancel this
            exact hnotmem_ns (hmn ▸ hm))
        (fun m hm => hnr m (List.mem_cons_of_mem _ hm))
        (fun m hm => hpidr m (List.mem_cons_of_mem _ hm))
        (fun m hm => hseasr m (List.mem_cons_of_mem _ hm))
        (by
          simp only [List.mem_append]
          rintro (h | h)
          · exact hpide h
          · exact hpidr n hmemn (eq_of_mem_if_singleton h))
        (by
          simp only [List.mem_append]
          rintro (h | h)
          · exact hseae h
          · exact hseasr n hmemn (eq_of_mem_if_singleton h))
        (fun m hm => by
          simp only [List.mem_append]
          rintro (h | h)
          · exact hne m (List.mem_cons_of_mem _ hm) h
          · exact hnr m (List.mem_cons_of_mem _ hm) n (eq_of_mem_if_singleton h))
        hnd'
    have hfold : (n :: ns).foldl addRoll st = ns.foldl addRoll (addRoll st n) := rfl
    refine ⟨(if n ∈ base.cols then [n ++ "_roll10"] else []) ++ extra2, ?_, ?_, ?_, ?_, ?_, ?_⟩
    · rw [hfold, hc1, hscols, List.append_assoc]
    · intro m hm
      rcases List.mem_append.1 hm with h | h
      · exact ⟨n, hmemn, eq_of_mem_if_singleton h⟩
      · obtain ⟨b, hb, hbe⟩ := hc2 m h
        exact ⟨b, List.mem_cons_of_mem _ hb, hbe⟩
    · rw [hfold]
      exact hc3
    · rw [hfold]
      exact hc4
    · intro n' j hn'
      rw [hfold, hc5 n' j (by rw [hscols]; exact List.mem_append_left _ hn')]
      exact hspres n' j hn'
    · intro b hb hbase j hj
      rcases List.mem_cons.1 hb with hbn | hbns
      · subst hbn
        rw [hfold, hc5 (b ++ "_roll10") j ?memb]
        · exact hsval hbase j hj
        case memb =>
          rw [hscols, if_pos hbase]
          exact List.mem_append_right _ (List.mem_singleton.2 rfl)
      · exact hfold ▸ hc6 b hbns hbase j hj

/-! ## Frame behaviour of `make_player_trends` (amended) -/

/-- C10 (amended): on a rectangular table that carries the grouping
columns whenever `game_date` is present and has no `*_roll10` column yet,
`make_player_trends` succeeds, only reorders the rows and appends new
`*_roll10` columns: the original columns are an unchanged prefix, the
appended labels are roll labels, and the rows restricted to the original
columns are a permutation of the input rows. -/
theorem make_player_trends_frame (df : DF) (hrect : df.Rect)
    (hgd : "game_date" ∈ df.cols → ("player_id" ∈ df.cols ∧ "season" ∈ df.cols))
    (hroll : ∀ b ∈ trendCols, b ++ "_roll10" ∉ df.cols) :
    ∃ out extra, make_player_trends df = Except.ok out ∧
      out.cols = df.cols ++ extra ∧
      (∀ n ∈ extra, ∃ b ∈ trendCols, n = b ++ "_roll10") ∧
      List.Perm (out.rows.map (fun r => r.take df.cols.length)) df.rows := by
  have hid : df.rows.map (fun r => r.take df.cols.length) = df.rows := by
    conv_rhs => rw [← List.map_id df.rows]
    refine List.map_congr_left ?_
    intro r hr
    rw [← hrect r hr]
    simp
  by_cases hemp : df.isEmpty = true
  · refine ⟨df, [], ?_, by simp, ?_, ?_⟩
    · unfold make_player_trends
      rw [if_pos hemp]
    · intro nn hnn
      exact absurd hnn (List.not_mem_nil nn)
    · rw [hid]
  · by_cases hgdm : "game_date" ∈ df.cols
    · obtain ⟨hpid, hseas⟩ := hgd hgdm
      have hmk : make_player_trends df =
          Except.ok (trendCols.foldl addRoll
            { cols := df.cols, rows := sortByStable (rowLe df.cols) df.rows }) := by
        unfold make_player_trends
        rw [if_neg hemp, if_neg (not_not_intro hgdm), if_neg ?hor]
        case hor =>
          rintro (h | h)
          · exact h hpid
          · exact h hseas
      have hperm : List.Perm (sortByStable (rowLe df.cols) df.rows) df.rows :=
        sortByStable_perm _ _
      have hrect0 : ∀ r ∈ sortByStable (rowLe df.cols) df.rows,
          r.length = df.cols.length :=
        fun r hr => hrect r (hperm.mem_iff.1 hr)
      have hFrefl : List.Forall₂ (fun r' r0 => ∃ vs, r' = r0 ++ vs)
          (sortByStable (rowLe df.cols) df.rows) (sortByStable (rowLe df.cols) df.rows) :=
        List.forall₂_same.2 (fun r _ => ⟨[], (List.append_nil r).symm⟩)
      have hnr : ∀ m ∈ trendCols, ∀ mm : String, m ≠ mm ++ "_roll10" := by
        intro m hm
        simp only [trendCols, List.mem_cons, List.not_mem_nil, or_false] at hm
        rcases hm with rfl | rfl | rfl
        · exact string_ne_append_roll10 _ (by decide)
        · exact string_ne_append_roll10 _ (by decide)
        · exact string_ne_append_roll10 _ (by decide)
      obtain ⟨extra2, hc1, hc2, hc3, hc4, hc5, hc6⟩ :=
        foldl_addRoll_spec trendCols
          { cols := df.cols, rows := sortByStable (rowLe df.cols) df.rows }
          { cols := df.cols, rows := sortByStable (rowLe df.cols) df.rows }
          [] (by simp) hrect0 hFrefl hrect0
          hroll
          (fun n _ => List.not_mem_nil _)
          hnr
          (fun n _ => string_ne_append_roll10 "player_id" (by decide) n)
          (fun n _ => string_ne_append_roll10 "season" (by decide) n)
          (List.not_mem_nil _) (List.not_mem_nil _)
          (fun n _ => List.not_mem_nil n)
          (by decide)
      refine ⟨trendCols.foldl addRoll
        { cols := df.cols, rows := sortByStable (rowLe df.cols) df.rows },
        extra2, hmk, hc1, hc2, ?_⟩
      rw [forall₂_ext_map_take df.cols.length hc3 hrect0]
      exact hperm
    · refine ⟨df, [], ?_, by simp, ?_, ?_⟩
      · unfold make_player_trends
        rw [if_neg hemp, if_pos hgdm]
      · intro nn hnn
        exact absurd hnn (List.not_mem_nil nn)
      · rw [hid]

/-- C10 counterexample: on an input that already has a `pts_roll10`
column, `make_player_trends` overwrites that column in place instead of
leaving every pre-existing column's value unchanged: the single row's
`pts_roll10` entry changes from `99` to missing. -/
theorem make_player_trends_overwrites_roll10 :
    make_player_trends dfC =
      Except.ok
        { cols := ["player_id", "season", "game_date", "pts", "pts_roll10"],
          rows := [[Val.num 1, Val.str "s", Val.num 5, Val.num 7, Val.null]] } ∧
    getEntry dfC.cols (dfC.rows.getD 0 []) "pts_roll10" = some (Val.num 99) ∧
    getEntry ["player_id", "season", "game_date", "pts", "pts_roll10"]
      [Val.num 1, Val.str "s", Val.num 5, Val.num 7, Val.null] "pts_roll10" =
      some Val.null ∧
    some (Val.num 99) ≠ some Val.null :=
  ⟨rfl, rfl, rfl, by decide⟩

theorem make_player_trends_frame_witness :
    ∃ out extra, make_player_trends dfT = Except.ok out ∧
      out.cols = dfT.cols ++ extra ∧
      (∀ n ∈ extra, ∃ b ∈ trendCols, n = b ++ "_roll10") ∧
      List.Perm (out.rows.map (fun r => r.take dfT.cols.length)) dfT.rows :=
  make_player_trends_frame dfT (by decide) (by decide) (by decide)

/-! ## Rolling means (`make_player_trends`) -/

/-- C1: on a player-game table (grouping columns present, no roll columns
yet, non-missing group keys and numeric statistics), for each statistic
column among pts/reb/ast that is present, `make_player_trends` fills the
corresponding `*_roll10` column, per (player_id, season) group in
game-date order, with a value that is missing whenever fewer than 3 games
of the group are available so far, and otherwise is the mean over the
trailing window of at most the 10 most recent games of the group. -/
theorem make_player_trends_rolling (df : DF) (hrect : df.Rect)
    (hgdm : "game_date" ∈ df.cols) (hpid : "player_id" ∈ df.cols)
    (hseas : "season" ∈ df.cols)
    (hroll : ∀ b ∈ trendCols, b ++ "_roll10" ∉ df.cols)
    (name : String) (hname : name ∈ trendCols) (hnamecol : name ∈ df.cols)
    (hkeys : ∀ r ∈ df.rows, (groupKey df.cols r).isSome = true)
    (hobs : ∀ r ∈ df.rows, (colObs df.cols name r).isSome = true) :
    ∃ out, make_player_trends df = Except.ok out ∧
      out.rows.length = df.rows.length ∧
      (∀ j, j < df.rows.length →
        getEntry out.cols (out.rows.getD j []) (name ++ "_roll10") =
          some (
            let sorted := sortByStable (rowLe df.cols) df.rows
            let grp := (sorted.take (j + 1)).filter
              (fun r2 => groupKey df.cols r2 = groupKey df.cols (sorted.getD j []))
            let window := (grp.drop (grp.length - 10)).map
              (fun r2 => (colObs df.cols name r2).getD 0)
            if grp.length < 3 then Val.null
            else Val.num (window.sum / (window.length : Rat)))) := by
  by_cases hemp : df.isEmpty = true
  · have hrows : df.rows = [] := isEmpty_rows_eq_nil hemp (List.ne_nil_of_mem hgdm)
    refine ⟨df, ?_, rfl, ?_⟩
    · unfold make_player_trends
      rw [if_pos hemp]
    · intro j hj
      rw [hrows] at hj
      simp at hj
  · have hmk : make_player_trends df =
        Except.ok (trendCols.foldl addRoll
          { cols := df.cols, rows := sortByStable (rowLe df.cols) df.rows }) := by
      unfold make_player_trends
      rw [if_neg hemp, if_neg (not_not_intro hgdm), if_neg ?hor]
      case hor =>
        rintro (h | h)
        · exact h hpid
        · exact h hseas
    have hperm : List.Perm (sortByStable (rowLe df.cols) df.rows) df.rows :=
      sortByStable_perm _ _
    have hrect0 : ∀ r ∈ sortByStable (rowLe df.cols) df.rows,
        r.length = df.cols.length :=
      fun r hr => hrect r (hperm.mem_iff.1 hr)
    have hFrefl : List.Forall₂ (fun r' r0 => ∃ vs, r' = r0 ++ vs)
        (sortByStable (rowLe df.cols) df.rows) (sortByStable (rowLe df.cols) df.rows) :=
      List.forall₂_same.2 (fun r _ => ⟨[], (List.append_nil r).symm⟩)
    have hnr : ∀ m ∈ trendCols, ∀ mm : String, m ≠ mm ++ "_roll10" := by
      intro m hm
      simp only [trendCols, List.mem_cons, List.not_mem_nil, or_false] at hm
      rcases hm with rfl | rfl | rfl
      · exact string_ne_append_roll10 _ (by decide)
      · exact string_ne_append_roll10 _ (by decide)
      · exact string_ne_append_roll10 _ (by decide)
    obtain ⟨extra2, hc1, hc2, hc3, hc4, hc5, hc6⟩ :=
      foldl_addRoll_spec trendCols
        { cols := df.cols, rows := sortByStable (rowLe df.cols) df.rows }
        { cols := df.cols, rows := sortByStable (rowLe df.cols) df.rows }
        [] (by simp) hrect0 hFrefl hrect0
        hroll
        (fun n _ => List.not_mem_nil _)
        hnr
        (fun n _ => string_ne_append_roll10 "player_id" (by decide) n)
        (fun n _ => string_ne_append_roll10 "season" (by decide) n)
        (List.not_mem_nil _) (List.not_mem_nil _)
        (fun n _ => List.not_mem_nil n)
        (by decide)
    set sorted := sortByStable (rowLe df.cols) df.rows with hsorddef
    have hlen_sorted : sorted.length = df.rows.length := hperm.length_eq
    refine ⟨trendCols.foldl addRoll { cols := df.cols, rows := sorted }, hmk, ?_, ?_⟩
    · have := hc3.length_eq
      rw [this]
      exact hlen_sorted
    · intro j hj
      have hj' : j < sorted.length := by rw [hlen_sorted]; exact hj
      have hr_mem : sorted.getD j [] ∈ sorted := getD_mem _ _ _ hj'
      have hkeysome : (groupKey df.cols (sorted.getD j [])).isSome = true :=
        hkeys _ (hperm.mem_iff.1 hr_mem)
      obtain ⟨k, hk⟩ := Option.isSome_iff_exists.1 hkeysome
      have hval := hc6 name hname hnamecol j hj'
      rw [hval]
      -- compute the stored rolling value
      have htrv : (transformRoll df.cols name sorted).getD j Val.null =
          (match groupKey df.cols (sorted.getD j []) with
           | none => Val.null
           | some k =>
             match rollMeanAt 10 3
               ((sorted.filter (fun r2 => groupKey df.cols r2 = some k)).map
                 (colObs df.cols name))
               (((sorted.take j).filter
                 (fun r2 => groupKey df.cols r2 = some k)).length) with
             | none => Val.null
             | some q => Val.num q) := by
        unfold transformRoll
        exact getD_map_range sorted.length _ Val.null j hj'
      rw [htrv]
      simp only [hk]
      set G := (sorted.take (j + 1)).filter
        (fun r2 => decide (groupKey df.cols r2 = some k)) with hGdef
      -- the row at position j belongs to its own group
      have hPr : decide (groupKey df.cols (sorted.getD j []) = some k) = true := by
        rw [hk]
        exact decide_eq_true rfl
      have hfiltersingle : List.filter (fun r2 => decide (groupKey df.cols r2 = some k))
          [sorted.getD j []] = [sorted.getD j []] := by
        rw [List.filter_cons, hPr, if_pos rfl, List.filter_nil]
      -- the group prefix
      have htakej : sorted.take (j + 1) = sorted.take j ++ [sorted.getD j []] := by
        rw [List.take_succ, List.getElem?_eq_getElem hj']
        rw [getD_eq_get _ _ _ hj']
        simp
      have hgrp : G =
          (sorted.take j).filter (fun r2 => decide (groupKey df.cols r2 = some k)) ++
            [sorted.getD j []] := by
        rw [hGdef, htakej, List.filter_append, hfiltersingle]
      have hgrplen : G.length =
          ((sorted.take j).filter
            (fun r2 => decide (groupKey df.cols r2 = some k))).length + 1 := by
        rw [hgrp]
        simp
      -- the series prefix observed so far is exactly the group prefix
      have hseriestake :
          (((sorted.filter (fun r2 => decide (groupKey df.cols r2 = some k))).map
            (colObs df.cols name)).take
            (((sorted.take j).filter
              (fun r2 => decide (groupKey df.cols r2 = some k))).length + 1)) =
          G.map (colObs df.cols name) := by
        rw [← List.map_take]
        congr 1
        have hlen2 : ((sorted.take (j + 1)).filter
            (fun r2 => decide (groupKey df.cols r2 = some k))).length =
            ((sorted.take j).filter
              (fun r2 => decide (groupKey df.cols r2 = some k))).length + 1 := by
          rw [← hGdef]
          exact hgrplen
        rw [← hlen2]
        exact filter_take_prefix _ sorted (j + 1)
      -- every observation in the group is numeric
      have hobs_grp : ∀ x ∈ G.map (colObs df.cols name), x.isSome = true := by
        intro x hx
        obtain ⟨r2, hr2, hr2e⟩ := List.mem_map.1 hx
        rw [hGdef] at hr2
        have hr2s : r2 ∈ sorted := List.mem_of_mem_take (List.mem_of_mem_filter hr2)
        rw [← hr2e]
        exact hobs r2 (hperm.mem_iff.1 hr2s)
      -- unfold the rolling mean at this position
      have hrmean : rollMeanAt 10 3
          ((sorted.filter (fun r2 => decide (groupKey df.cols r2 = some k))).map
            (colObs df.cols name))
          (((sorted.take j).filter
            (fun r2 => decide (groupKey df.cols r2 = some k))).length) =
          (if (((G.map (colObs df.cols name)).drop (G.length - 10)).filterMap id).length < 3
           then none
           else some ((((G.map (colObs df.cols name)).drop (G.length - 10)).filterMap id).sum /
             (((((G.map (colObs df.cols name)).drop (G.length - 10)).filterMap id).length : Nat) : Rat))) := by
        unfold rollMeanAt
        rw [hseriestake, ← hgrplen]
      rw [hrmean]
      have hwinobs : ∀ x ∈ (G.map (colObs df.cols name)).drop (G.length - 10),
          x.isSome = true :=
        fun x hx => hobs_grp x (List.mem_of_mem_drop hx)
      rw [filterMap_id_of_isSome _ hwinobs]
      rw [← List.map_drop]
      rw [List.map_map]
      by_cases hlt : G.length < 3
      · have hlt2 : (((G.drop (G.length - 10)).map
            ((fun o => o.getD 0) ∘ colObs df.cols name)).length) < 3 := by
          rw [List.length_map, List.length_drop]
          omega
        rw [if_pos hlt2, if_pos hlt]
      · have hlt2 : ¬ ((((G.drop (G.length - 10)).map
            ((fun o => o.getD 0) ∘ colObs df.cols name)).length) < 3) := by
          rw [List.length_map, List.length_drop]
          omega
        rw [if_neg hlt2, if_neg hlt]
        rfl

theorem make_player_trends_rolling_witness :
    ∃ out, make_player_trends dfT = Except.ok out ∧
      out.rows.length = dfT.rows.length ∧
      (∀ j, j < dfT.rows.length →
        getEntry out.cols (out.rows.getD j []) ("pts" ++ "_roll10") =
          some (
            let sorted := sortByStable (rowLe dfT.cols) dfT.rows
            let grp := (sorted.take (j + 1)).filter
              (fun r2 => groupKey dfT.cols r2 = groupKey dfT.cols (sorted.getD j []))
            let window := (grp.drop (grp.length - 10)).map
              (fun r2 => (colObs dfT.cols "pts" r2).getD 0)
            if grp.length < 3 then Val.null
            else Val.num (window.sum / (window.length : Rat)))) :=
  make_player_trends_rolling dfT (by decide) (by decide) (by decide) (by decide)
    (by decide) "pts" (by decide) (by decide) (by decide) (by decide)
end NbaEtl
